import Mathlib

/-!
# in_memory_cache: the `Cash` engine of `src/cash.go`

A shallow embedding of the cache engine and theorems about it.

Modelling choices, each taken from the source:

* A Go `map[string]T` is a finite map with unique keys and no order:
  `Finmap (fun _ : String => T)`.  `len(m)` is the number of keys,
  `m[k] = v` is `Finmap.insert`, `delete(m, k)` is `Finmap.erase`,
  `v, ok := m[k]` is `Finmap.lookup`.
* `time.Time` instants and `time.Duration` are integers (nanoseconds);
  `t.Add(d)` is `t + d`, `t.After(u)` is `u < t`, `t.Before(u)` is `t < u`.
  The arithmetic is exact: instants stay within the range `time.Time` holds.
* Every `time.Now()` in the source is an explicit argument of the embedded
  function, in the order in which the source reads the clock.  `Set` reads the
  clock twice (once for the expiry, once for the last access), `Get` reads it
  for the expiry check and again for the refresh.
* `for key, accessTime := range c.LastAccess` visits the entries in an order
  the language leaves open; the order is an explicit argument of `evict` (and
  of `Set`, which calls it), a list of entries.  `IsRangeOf order m` says that
  the list enumerates the entries of `m`, each once.
* `interface{}` values are a type parameter `V`.
* The `Mutex` field and the locking calls are not modelled: the embedding is
  the sequential behaviour of one call at a time.
* The source calls an undefined lowercase `deleteKey` from `Get` and `evict`;
  it is read as `DeleteKey`.
* `runtime.ReadMemStats` is an input: `getDefaultCapacity` takes the value of
  the `Frees` counter (a `uint64`) as an argument; `int` is 64 bits wide.
* In `main`, `fmt.Sprintf("key%d", i)` is `"key" ++ toString i`, the printed
  lines are the results of the three `Get` calls, and `time.Sleep` shows only
  in the clock readings that follow it.
-/

deriving instance DecidableEq for Except

/-- An instant of `time.Time`, in nanoseconds. -/
abbrev Time := Int

/-- A `time.Duration`, in nanoseconds (it may be zero or negative). -/
abbrev Duration := Int

/-- A Go `map[string]V`. -/
abbrev GoMap (V : Type) := Finmap (fun _ : String => V)

/-- One step of a `range` over a `map[string]time.Time`: a key and its value. -/
abbrev RangeEntry := (Σ _ : String, Time)

/-- Go's `len(m)` for a map. -/
def len {V : Type} (m : GoMap V) : Nat := m.keys.card

/-- The list `order` is a possible iteration order of `range m`: it holds every
entry of `m` exactly once. -/
def IsRangeOf (order : List RangeEntry) (m : GoMap Time) : Prop :=
  (order : Multiset RangeEntry) = m.entries

instance (order : List RangeEntry) (m : GoMap Time) : Decidable (IsRangeOf order m) := by
  unfold IsRangeOf; infer_instance

/-- The conversion `int(x)` of a `uint64` to a 64-bit `int` (two's complement). -/
def intOfUint64 (x : Nat) : Int :=
  if x % 2 ^ 64 < 2 ^ 63 then (x % 2 ^ 64 : Nat) else (x % 2 ^ 64 : Nat) - 2 ^ 64

/-- `getDefaultCapacity` of the source; `frees` is `memStats.Frees`. -/
def getDefaultCapacity (frees : Nat) : Int :=
  let freeMemory := frees % 2 ^ 64
  let capacity := intOfUint64 (freeMemory / 1024 / 10)
  if capacity < 100 then 100 else capacity

/-- The error type `KeyNotFoundError` of the source. -/
structure KeyNotFoundError where
  Key : String
deriving DecidableEq, Repr

/-- The struct `Cash` of the source, without its `Mutex`. -/
structure Cash (V : Type) where
  Storage : GoMap V
  TTL : GoMap Time
  LastAccess : GoMap Time
  Capacity : Int

namespace Cash

variable {V : Type}

instance [DecidableEq V] : DecidableEq (Cash V) := fun a b =>
  decidable_of_iff
    (a.Storage = b.Storage ∧ a.TTL = b.TTL ∧ a.LastAccess = b.LastAccess ∧
      a.Capacity = b.Capacity)
    (by
      cases a; cases b
      simp)

/-- `NewCash` of the source; `frees` is the runtime counter read by
`getDefaultCapacity`. -/
def NewCash (frees : Nat) : Cash V :=
  { Storage := ∅
    TTL := ∅
    LastAccess := ∅
    Capacity := getDefaultCapacity frees }

/-- `DeleteKey` of the source: three `delete` statements. -/
def DeleteKey (c : Cash V) (key : String) : Cash V :=
  { c with
    Storage := c.Storage.erase key
    TTL := c.TTL.erase key
    LastAccess := c.LastAccess.erase key }

/-- The body of the loop of `evict`: `acc` is `(oldestKey, oldestTime)`, `e` is
the entry `(key, accessTime)` the `range` yields. -/
def evictScan (acc : String × Time) (e : RangeEntry) : String × Time :=
  if acc.1 = "" ∨ e.2 < acc.2 then (e.1, e.2) else acc

/-- The pair `(oldestKey, oldestTime)` after the loop of `evict`, started from
the zero values of the two variables. -/
def evictOldest (order : List RangeEntry) : String × Time :=
  order.foldl evictScan ("", 0)

/-- `evict` of the source; `order` is the order in which `range c.LastAccess`
yields the entries. -/
def evict (c : Cash V) (order : List RangeEntry) : Cash V :=
  let oldestKey := (evictOldest order).1
  if oldestKey ≠ "" then c.DeleteKey oldestKey else c

/-- `Set` of the source.  `now1` is the clock reading of `time.Now().Add(ttl)`,
`now2` the one stored in `LastAccess`; `order` is the iteration order used by
`evict`, when it runs. -/
def Set (c : Cash V) (key : String) (value : V) (ttl : Duration) (now1 now2 : Time)
    (order : List RangeEntry) : Cash V :=
  let c1 := if c.Capacity ≤ (len c.Storage : Int) then c.evict order else c
  { c1 with
    Storage := c1.Storage.insert key value
    TTL := c1.TTL.insert key (now1 + ttl)
    LastAccess := c1.LastAccess.insert key now2 }

/-- `Get` of the source: the returned pair `(value, error)` as an `Except`, and
the state after the call.  `now1` is the clock reading compared with the expiry,
`now2` the one stored in `LastAccess`. -/
def Get (c : Cash V) (key : String) (now1 now2 : Time) :
    Except KeyNotFoundError V × Cash V :=
  match c.Storage.lookup key with
  | none => (.error { Key := key }, c)
  | some value =>
    match c.TTL.lookup key with
    | some ttl =>
      if ttl < now1 then
        (.error { Key := key }, c.DeleteKey key)
      else
        (.ok value, { c with LastAccess := c.LastAccess.insert key now2 })
    | none => (.ok value, { c with LastAccess := c.LastAccess.insert key now2 })

/-- The three maps hold the same key set (invariant I1). -/
def SameKeys (c : Cash V) : Prop :=
  c.Storage.keys = c.TTL.keys ∧ c.TTL.keys = c.LastAccess.keys

instance (c : Cash V) : Decidable (SameKeys c) := by
  unfold SameKeys; infer_instance

/-! ### Concrete states and runs used by the evaluations below -/

/-- A one-entry state in lockstep: key `k`, value `v`, expiry 10, last access 3,
capacity 2. -/
def sampleCash : Cash String :=
  { Storage := (∅ : GoMap String).insert "k" "v"
    TTL := (∅ : GoMap Time).insert "k" 10
    LastAccess := (∅ : GoMap Time).insert "k" 3
    Capacity := 2 }

/-- The key of the `i`-th call of the filling run: `i` letters `a`, so the first
key (`i = 0`) is the empty string. -/
def fillKey (i : Nat) : String := String.mk (List.replicate i 'a')

/-- The iteration order handed to the `i`-th call of the filling run: the
entries written by the calls `1 .. i-1` in that order, then the entry of the
empty key written by call `0`. -/
def fillOrder (i : Nat) : List RangeEntry :=
  if i = 0 then []
  else ((List.range i).tail.map fun j => (⟨fillKey j, (j : Int)⟩ : RangeEntry)) ++ [⟨"", 0⟩]

/-- The filling run: from `NewCash` with `Frees = 0`, the calls
`Set (fillKey i) "v" 10 ..` for `i = 0 .. n-1`, call `i` reading the clock as
`i` both times. -/
def fillRun (n : Nat) : Cash String :=
  (List.range n).foldl
    (fun c i => c.Set (fillKey i) "v" 10 (i : Int) (i : Int) (fillOrder i))
    (NewCash 0)

/-- A full state in lockstep with capacity 3: the empty key last accessed at 1,
`a` at 5 and `b` at 9. -/
def victimCash : Cash String :=
  { Storage := (((∅ : GoMap String).insert "" "v0").insert "a" "v1").insert "b" "v2"
    TTL := (((∅ : GoMap Time).insert "" 100).insert "a" 100).insert "b" 100
    LastAccess := (((∅ : GoMap Time).insert "" 1).insert "a" 5).insert "b" 9
    Capacity := 3 }

/-- An iteration order of `victimCash.LastAccess`: `a`, the empty key, `b`. -/
def victimOrder : List RangeEntry := [⟨"a", 5⟩, ⟨"", 1⟩, ⟨"b", 9⟩]

/-- A full state in lockstep with capacity 1 whose only entry is stored under the
empty key. -/
def onlyEmptyKeyCash : Cash String :=
  { Storage := (∅ : GoMap String).insert "" "v0"
    TTL := (∅ : GoMap Time).insert "" 100
    LastAccess := (∅ : GoMap Time).insert "" 1
    Capacity := 1 }

/-- A full state in lockstep with capacity 2: `a` last accessed at 1 and `b` at
2, both expiring at 100. -/
def pairCash : Cash String :=
  { Storage := ((∅ : GoMap String).insert "a" "v1").insert "b" "v2"
    TTL := ((∅ : GoMap Time).insert "a" 100).insert "b" 100
    LastAccess := ((∅ : GoMap Time).insert "a" 1).insert "b" 2
    Capacity := 2 }

/-- A full state in lockstep with capacity 2: `x` last accessed at 1 and expiring
at 100, `y` last accessed at 2 and expiring at 10. -/
def staleCash : Cash String :=
  { Storage := ((∅ : GoMap String).insert "x" "v1").insert "y" "v2"
    TTL := ((∅ : GoMap Time).insert "x" 100).insert "y" 10
    LastAccess := ((∅ : GoMap Time).insert "x" 1).insert "y" 2
    Capacity := 2 }

/-! ### Sequences of calls -/

/-- One call on the engine, with the clock readings and the iteration order it
is given. -/
inductive Op (V : Type) where
  | set (key : String) (value : V) (ttl : Duration) (now1 now2 : Time)
      (order : List RangeEntry)
  | get (key : String) (now1 now2 : Time)
  | delete (key : String)

/-- The state after one call. -/
def step (c : Cash V) : Op V → Cash V
  | .set key value ttl now1 now2 order => c.Set key value ttl now1 now2 order
  | .get key now1 now2 => (c.Get key now1 now2).2
  | .delete key => c.DeleteKey key

/-- The state after a sequence of calls. -/
def run (c : Cash V) (ops : List (Op V)) : Cash V :=
  ops.foldl step c

/-- A call that does not use the empty key, in a state `c`: a `Set` has a
non-empty key and, when its capacity check trips, is handed an iteration order
of `c.LastAccess`. -/
def Admissible (c : Cash V) : Op V → Prop
  | .set key _ _ _ _ order =>
      key ≠ "" ∧ (c.Capacity ≤ (len c.Storage : Int) → IsRangeOf order c.LastAccess)
  | .get _ _ _ => True
  | .delete _ => True

/-- Every call of the sequence is admissible in the state it is made in. -/
def AdmissibleRun (c : Cash V) : List (Op V) → Prop
  | [] => True
  | op :: ops => Admissible c op ∧ AdmissibleRun (step c op) ops

/-! ### The driver `main` -/

/-- `fmt.Sprintf("key%d", i)` for a non-negative `i`. -/
def keyName (i : Nat) : String := "key" ++ toString i

/-- `fmt.Sprintf("value%d", i)` for a non-negative `i`. -/
def valueName (i : Nat) : String := "value" ++ toString i

/-- `time.Second`, in nanoseconds. -/
def Second : Duration := 1000000000

/-- The number a list of decimal digit characters stands for, continuing from
the number `start` read so far. -/
def digitsValue (ds : List Char) (start : Nat) : Nat :=
  ds.foldl (fun acc ch => acc * 10 + (ch.toNat - 48)) start

/-- The clock readings of `main`, in program order: the two readings of each of
the two `Set` calls, of the first `Get`, of the second `Get` (made after
`time.Sleep`), of the `Set` of each loop iteration (numbered from 0), and of the
last `Get`.  A reading whose `time.Now()` is not reached is not used. -/
structure MainClock where
  set1 : Time × Time
  set2 : Time × Time
  get1 : Time × Time
  get2 : Time × Time
  loop : Nat → Time × Time
  get3 : Time × Time

/-- The clock of a run of `main` with `n` loop iterations does not run
backwards. -/
def MainClock.NonDecreasing (clock : MainClock) (n : Nat) : Prop :=
  clock.set1.1 ≤ clock.set1.2 ∧ clock.set1.2 ≤ clock.set2.1 ∧
  clock.set2.1 ≤ clock.set2.2 ∧ clock.set2.2 ≤ clock.get1.1 ∧
  clock.get1.1 ≤ clock.get1.2 ∧ clock.get1.2 ≤ clock.get2.1 ∧
  clock.get2.1 ≤ clock.get2.2 ∧
  (∀ j, j < n → clock.get2.2 ≤ (clock.loop j).1 ∧ (clock.loop j).1 ≤ (clock.loop j).2) ∧
  (∀ j, j + 1 < n → (clock.loop j).2 ≤ (clock.loop (j + 1)).1) ∧
  (∀ j, j < n → (clock.loop j).2 ≤ clock.get3.1) ∧
  clock.get3.1 ≤ clock.get3.2

/-- What a run of `main` prints, as the results of its three `Get` calls, and
the final state. -/
structure MainResult where
  first : Except KeyNotFoundError String
  second : Except KeyNotFoundError String
  third : Except KeyNotFoundError String
  cash : Cash String

/-- The state after the two `Set` calls of `main`.  `rangeOf i m` is the order
in which the `i`-th `Set` call of the run would iterate over the map `m`. -/
def mainSets (cash : Cash String) (clock : MainClock)
    (rangeOf : Nat → GoMap Time → List RangeEntry) : Cash String :=
  let cash1 := cash.Set "key1" "value1" (5 * Second) clock.set1.1 clock.set1.2
    (rangeOf 0 cash.LastAccess)
  cash1.Set "key2" "value2" (10 * Second) clock.set2.1 clock.set2.2
    (rangeOf 1 cash1.LastAccess)

/-- The first `Get("key1")` of `main`. -/
def mainFirstGet (cash : Cash String) (clock : MainClock)
    (rangeOf : Nat → GoMap Time → List RangeEntry) :
    Except KeyNotFoundError String × Cash String :=
  (mainSets cash clock rangeOf).Get "key1" clock.get1.1 clock.get1.2

/-- The second `Get("key1")` of `main`, after the sleep. -/
def mainSecondGet (cash : Cash String) (clock : MainClock)
    (rangeOf : Nat → GoMap Time → List RangeEntry) :
    Except KeyNotFoundError String × Cash String :=
  (mainFirstGet cash clock rangeOf).2.Get "key1" clock.get2.1 clock.get2.2

/-- The state after the first `j` iterations of the loop of `main`, started in
`cash`: iteration `j` (from 0) has `i = j + 3`. -/
def mainLoop (clock : MainClock) (rangeOf : Nat → GoMap Time → List RangeEntry)
    (cash : Cash String) : Nat → Cash String
  | 0 => cash
  | j + 1 =>
    (mainLoop clock rangeOf cash j).Set (keyName (j + 3)) (valueName (j + 3)) (10 * Second)
      (clock.loop j).1 (clock.loop j).2
      (rangeOf (j + 2) (mainLoop clock rangeOf cash j).LastAccess)

/-- The number of iterations of `for i := 3; i <= cash.Capacity+3; i++`; the
bound is the same at every test, the loop body being a `Set`, which leaves
`Capacity` as it is. -/
def mainIterations (cash : Cash String) : Nat := (cash.Capacity + 1).toNat

/-- The body of `main` after `cash := NewCash()`. -/
def mainBody (cash : Cash String) (clock : MainClock)
    (rangeOf : Nat → GoMap Time → List RangeEntry) : MainResult :=
  let r1 := mainFirstGet cash clock rangeOf
  let r2 := mainSecondGet cash clock rangeOf
  let filled := mainLoop clock rangeOf r2.2 (mainIterations r2.2)
  let r3 := filled.Get "key2" clock.get3.1 clock.get3.2
  { first := r1.1, second := r2.1, third := r3.1, cash := r3.2 }

/-- `main` of the source; `frees` is the runtime counter read by `NewCash`. -/
def main (frees : Nat) (clock : MainClock)
    (rangeOf : Nat → GoMap Time → List RangeEntry) : MainResult :=
  mainBody (NewCash frees) clock rangeOf

/-- An iteration order for every map: the entries by increasing key. -/
def sortedRange (m : GoMap Time) : List RangeEntry :=
  (m.keys.sort (· ≤ ·)).filterMap fun k => (m.lookup k).map fun t => ⟨k, t⟩

/-- A clock for `main`: the two `Set` calls and the first `Get` at 0, the
second `Get` after 6 seconds, loop iteration `j` another `j` nanoseconds later,
the last `Get` after 20 seconds. -/
def sampleClock : MainClock :=
  { set1 := (0, 0)
    set2 := (0, 0)
    get1 := (0, 0)
    get2 := (6 * Second, 6 * Second)
    loop := fun j => (6 * Second + (j : Int), 6 * Second + (j : Int))
    get3 := (20 * Second, 20 * Second) }

end Cash

/-! ## Facts about Go maps -/

theorem GoMap.keys_insert {V : Type} (m : GoMap V) (k : String) (v : V) :
    (m.insert k v).keys = insert k m.keys := by
  ext a
  simp [Finmap.mem_keys, Finmap.mem_insert]

theorem GoMap.len_insert_of_mem {V : Type} (m : GoMap V) (k : String) (v : V) (h : k ∈ m) :
    len (m.insert k v) = len m := by
  unfold len
  rw [GoMap.keys_insert, Finset.insert_eq_of_mem (Finmap.mem_keys.mpr h)]

theorem GoMap.len_insert_of_not_mem {V : Type} (m : GoMap V) (k : String) (v : V)
    (h : k ∉ m) : len (m.insert k v) = len m + 1 := by
  unfold len
  rw [GoMap.keys_insert, Finset.card_insert_of_not_mem (fun hk => h (Finmap.mem_keys.mp hk))]

theorem GoMap.len_erase_of_mem {V : Type} (m : GoMap V) (k : String) (h : k ∈ m) :
    len (m.erase k) + 1 = len m := by
  unfold len
  rw [Finmap.keys_erase, Finset.card_erase_of_mem (Finmap.mem_keys.mpr h)]
  have : 0 < m.keys.card := Finset.card_pos.mpr ⟨k, Finmap.mem_keys.mpr h⟩
  omega

theorem GoMap.erase_of_not_mem {V : Type} (m : GoMap V) (k : String) (h : k ∉ m) :
    m.erase k = m := by
  apply Finmap.ext_lookup
  intro x
  by_cases hx : x = k
  · subst hx
    rw [Finmap.lookup_erase, eq_comm, Finmap.lookup_eq_none]
    exact h
  · exact Finmap.lookup_erase_ne hx

theorem GoMap.count_key_of_mem {V : Type} (m : GoMap V) (k : String) (h : k ∈ m) :
    m.entries.keys.count k = 1 :=
  Multiset.count_eq_one_of_mem (Multiset.nodup_keys.mpr m.nodupKeys) (Finmap.mem_def.mp h)

namespace Cash

variable {V : Type}

/-! ## Lemmas shared by the claims -/

/-- What `Set` leaves under the key it writes. -/
theorem Set_lookup_key (c : Cash V) (key : String) (value : V) (ttl : Duration)
    (now1 now2 : Time) (order : List RangeEntry) :
    (c.Set key value ttl now1 now2 order).Storage.lookup key = some value ∧
    (c.Set key value ttl now1 now2 order).TTL.lookup key = some (now1 + ttl) ∧
    (c.Set key value ttl now1 now2 order).LastAccess.lookup key = some now2 := by
  simp [Set, Finmap.lookup_insert]

theorem SameKeys_DeleteKey (c : Cash V) (h : c.SameKeys) (key : String) :
    (c.DeleteKey key).SameKeys := by
  unfold SameKeys DeleteKey
  simp only [Finmap.keys_erase]
  exact ⟨by rw [h.1], by rw [h.2]⟩

theorem SameKeys_evict (c : Cash V) (h : c.SameKeys) (order : List RangeEntry) :
    (c.evict order).SameKeys := by
  unfold evict
  dsimp only
  split
  · exact SameKeys_DeleteKey c h _
  · exact h

theorem SameKeys_insert (c : Cash V) (h : c.SameKeys) (key : String) (value : V)
    (e a : Time) :
    SameKeys { c with
      Storage := c.Storage.insert key value
      TTL := c.TTL.insert key e
      LastAccess := c.LastAccess.insert key a } := by
  unfold SameKeys
  simp only [GoMap.keys_insert]
  exact ⟨by rw [h.1], by rw [h.2]⟩

theorem SameKeys_Set (c : Cash V) (h : c.SameKeys) (key : String) (value : V)
    (ttl : Duration) (now1 now2 : Time) (order : List RangeEntry) :
    (c.Set key value ttl now1 now2 order).SameKeys := by
  unfold Set
  split
  · exact SameKeys_insert _ (SameKeys_evict c h order) key value _ _
  · exact SameKeys_insert _ h key value _ _

theorem SameKeys_Get (c : Cash V) (h : c.SameKeys) (key : String) (now1 now2 : Time) :
    (c.Get key now1 now2).2.SameKeys := by
  unfold Get
  split
  · exact h
  · rename_i value hv
    have hmem : key ∈ c.LastAccess.keys := by
      rw [← h.2, ← h.1]
      exact Finmap.mem_keys.mpr (Finmap.mem_of_lookup_eq_some hv)
    have hrefresh : SameKeys { c with LastAccess := c.LastAccess.insert key now2 } := by
      unfold SameKeys
      simp only [GoMap.keys_insert, Finset.insert_eq_of_mem hmem]
      exact h
    split
    · split
      · exact SameKeys_DeleteKey c h key
      · exact hrefresh
    · exact hrefresh

/-! ## C1: the three cases of `Get` -/

/-- C1. `Get` case analysis: in a state whose three maps have the same key set,
`Get key` fails with `KeyNotFound key` when `key` is not in `Storage`; when `key`
is present, its expiry `e` exists and `Get` fails with `KeyNotFound key` if `e` is
strictly before the clock reading, and otherwise returns exactly the stored value
with no error.  So `Get` succeeds iff the key is present and its expiry is not
strictly before the clock reading. -/
theorem Get_case_analysis (c : Cash V) (h : c.SameKeys) (key : String) (now1 now2 : Time) :
    (c.Storage.lookup key = none →
        (c.Get key now1 now2).1 = .error { Key := key }) ∧
    (∀ v, c.Storage.lookup key = some v →
        ∃ e, c.TTL.lookup key = some e ∧
          (e < now1 → (c.Get key now1 now2).1 = .error { Key := key }) ∧
          (¬ e < now1 → (c.Get key now1 now2).1 = .ok v)) ∧
    ((∃ v, (c.Get key now1 now2).1 = .ok v) ↔
        ∃ v e, c.Storage.lookup key = some v ∧ c.TTL.lookup key = some e ∧ ¬ e < now1) := by
  have hex : ∀ v, c.Storage.lookup key = some v → ∃ e, c.TTL.lookup key = some e := by
    intro v hv
    have hk : key ∈ c.Storage.keys := Finmap.mem_keys.mpr (Finmap.mem_of_lookup_eq_some hv)
    rw [h.1] at hk
    exact Finmap.mem_iff.mp (Finmap.mem_keys.mp hk)
  refine ⟨?_, ?_, ?_⟩
  · intro hnone
    simp [Get, hnone]
  · intro v hv
    obtain ⟨e, he⟩ := hex v hv
    refine ⟨e, he, ?_, ?_⟩
    · intro hlt
      simp [Get, hv, he, hlt]
    · intro hge
      simp [Get, hv, he, hge]
  · constructor
    · rintro ⟨v, hok⟩
      cases hs : c.Storage.lookup key with
      | none => simp [Get, hs] at hok
      | some w =>
        obtain ⟨e, he⟩ := hex w hs
        refine ⟨w, e, rfl, he, ?_⟩
        intro hlt
        simp [Get, hs, he, hlt] at hok
    · rintro ⟨v, e, hv, he, hge⟩
      exact ⟨v, by simp [Get, hv, he, hge]⟩

/-- Witness of C1 on `sampleCash`: the key `k` is read at clock reading 10, its
expiry. -/
theorem Get_case_analysis_witness :
    sampleCash.SameKeys ∧
    ((∃ v, (sampleCash.Get "k" 10 11).1 = .ok v) ↔
      ∃ v e, sampleCash.Storage.lookup "k" = some v ∧
        sampleCash.TTL.lookup "k" = some e ∧ ¬ e < 10) :=
  ⟨by decide, (Get_case_analysis sampleCash (by decide) "k" 10 11).2.2⟩

/-! ## C2: what `Set` writes -/

/-- C2. `Set` postcondition: for every state, key (the empty string included),
value, ttl (zero and negative included), clock readings and iteration order,
after `Set key value ttl` the state has `Storage[key] = value`,
`TTL[key] = now1 + ttl` for the clock reading `now1` taken for the expiry and
`LastAccess[key] = now2` for the clock reading `now2` taken for the last access
(the call time `now` when both readings are that instant). -/
theorem Set_postcondition (c : Cash V) (key : String) (value : V) (ttl : Duration)
    (now1 now2 : Time) (order : List RangeEntry) :
    (c.Set key value ttl now1 now2 order).Storage.lookup key = some value ∧
    (c.Set key value ttl now1 now2 order).TTL.lookup key = some (now1 + ttl) ∧
    (c.Set key value ttl now1 now2 order).LastAccess.lookup key = some now2 :=
  Set_lookup_key c key value ttl now1 now2 order

/-! ## C3: the capacity ceiling and the empty key -/

set_option maxRecDepth 1000000 in
/-- C3, the code at a failing input.  From `NewCash` with `Frees = 0` (capacity
100), `Set` is called on 101 pairwise distinct keys, the first being the empty
string, at the clock readings `0, 1, .., 100`.  After 100 calls `Storage` holds
100 entries, the capacity; the last call runs `evict` with an iteration order
that enumerates `LastAccess`, the scan ends on the entry of the empty key, so
`evict` deletes nothing and `Storage` ends with 101 entries, above the
capacity. -/
theorem capacity_ceiling_broken_by_empty_key :
    ((List.range 101).map fillKey).Nodup ∧
    fillKey 0 = "" ∧
    (fillRun 100).Capacity = 100 ∧
    len (fillRun 100).Storage = 100 ∧
    IsRangeOf (fillOrder 100) (fillRun 100).LastAccess ∧
    (evictOldest (fillOrder 100)).1 = "" ∧
    fillRun 101 = (fillRun 100).Set (fillKey 100) "v" 10 100 100 (fillOrder 100) ∧
    (fillRun 101).Capacity = 100 ∧
    len (fillRun 101).Storage = 101 := by
  decide

/-! ## C4: the eviction victim and the empty key -/

/-- C4, the code at a failing input.  `victimCash` is in lockstep and full
(three entries, capacity 3); the last accesses are 1 for the empty key, 5 for
`a`, 9 for `b`.  With the iteration order `a`, empty key, `b`, the scan of `evict`
takes `a`, then the empty key, and then, finding `oldestKey` equal to the empty
string again, takes `b` without comparing times: `evict` (and the `Set` that
calls it) deletes `b`, the entry with the largest last access, and keeps `a` and
the empty key. -/
theorem evict_victim_not_oldest_with_empty_key :
    victimCash.SameKeys ∧
    victimCash.Capacity ≤ (len victimCash.Storage : Int) ∧
    IsRangeOf victimOrder victimCash.LastAccess ∧
    victimCash.LastAccess.lookup "" = some 1 ∧
    victimCash.LastAccess.lookup "a" = some 5 ∧
    victimCash.LastAccess.lookup "b" = some 9 ∧
    evictOldest victimOrder = ("b", 9) ∧
    victimCash.evict victimOrder = victimCash.DeleteKey "b" ∧
    (victimCash.evict victimOrder).LastAccess.lookup "b" = none ∧
    (victimCash.evict victimOrder).LastAccess.lookup "a" = some 5 ∧
    (victimCash.Set "c" "v3" 100 10 10 victimOrder).Storage.lookup "b" = none ∧
    (victimCash.Set "c" "v3" 100 10 10 victimOrder).Storage.lookup "a" = some "v1" ∧
    (victimCash.Set "c" "v3" 100 10 10 victimOrder).Storage.lookup "" = some "v0" := by
  decide

/-! ## C5: the lockstep invariant -/

/-- C5. Lockstep invariant (I1): the state built by `NewCash` has the same
(empty) key set in `Storage`, `TTL` and `LastAccess`, and each of `Set`, `Get`
(whatever branch it takes), `DeleteKey` and `evict`, applied to a state whose
three maps have the same key set, yields a state whose three maps again have the
same key set. -/
theorem lockstep_invariant :
    (∀ frees : Nat, (NewCash frees : Cash V).SameKeys ∧
        (NewCash frees : Cash V).Storage.keys = ∅) ∧
    (∀ c : Cash V, c.SameKeys →
      (∀ key value ttl now1 now2 order, (c.Set key value ttl now1 now2 order).SameKeys) ∧
      (∀ key now1 now2, (c.Get key now1 now2).2.SameKeys) ∧
      (∀ key, (c.DeleteKey key).SameKeys) ∧
      (∀ order, (c.evict order).SameKeys)) := by
  refine ⟨fun frees => ⟨⟨rfl, rfl⟩, rfl⟩, fun c h => ⟨?_, ?_, ?_, ?_⟩⟩
  · intro key value ttl now1 now2 order
    exact SameKeys_Set c h key value ttl now1 now2 order
  · intro key now1 now2
    exact SameKeys_Get c h key now1 now2
  · intro key
    exact SameKeys_DeleteKey c h key
  · intro order
    exact SameKeys_evict c h order

/-- Witness of C5 on `victimCash`: a `Set` that evicts, the three branches of
`Get` (absent key, expired key, live key), `DeleteKey` and `evict`. -/
theorem lockstep_invariant_witness :
    victimCash.SameKeys ∧
    (victimCash.Set "c" "v3" 100 10 10 victimOrder).SameKeys ∧
    (victimCash.Get "z" 10 10).2.SameKeys ∧
    (victimCash.Get "a" 101 101).2.SameKeys ∧
    (victimCash.Get "a" 10 10).2.SameKeys ∧
    (victimCash.DeleteKey "a").SameKeys ∧
    (victimCash.evict victimOrder).SameKeys :=
  ⟨by decide,
    ((lockstep_invariant.2 victimCash (by decide)).1 "c" "v3" 100 10 10 victimOrder),
    ((lockstep_invariant.2 victimCash (by decide)).2.1 "z" 10 10),
    ((lockstep_invariant.2 victimCash (by decide)).2.1 "a" 101 101),
    ((lockstep_invariant.2 victimCash (by decide)).2.1 "a" 10 10),
    ((lockstep_invariant.2 victimCash (by decide)).2.2.1 "a"),
    ((lockstep_invariant.2 victimCash (by decide)).2.2.2 victimOrder)⟩

/-! ## C6: `Get` right after a `Set` with a non-positive ttl -/

/-- C6 fails as stated: on the fresh cache, `Set "k" "v" 0` with the clock at 0
followed at once by `Get "k"` with the clock still at 0 (it has not run
backwards) succeeds and returns `"v"`: the expiry `0 + 0` is not strictly before
the reading 0. -/
theorem Get_after_Set_zero_ttl_same_reading :
    (0 : Duration) ≤ 0 ∧
    (((NewCash 0 : Cash String).Set "k" "v" 0 0 0 []).Get "k" 0 0).1 = .ok "v" ∧
    (((NewCash 0 : Cash String).Set "k" "v" 0 0 0 []).Get "k" 0 0).1 ≠
      .error { Key := "k" } := by
  decide

/-- C6 (amended). For every state, key, value and `ttl ≤ 0`, a `Get key` on the
state left by `Set key value ttl`, read at a clock reading `g1` not before the
reading `now1` that `Set` used for the expiry, fails with `KeyNotFound key`
whenever `ttl < 0` or the clock has strictly advanced (`now1 < g1`). -/
theorem Get_after_Set_nonpositive_ttl (c : Cash V) (key : String) (value : V)
    (ttl : Duration) (now1 now2 : Time) (order : List RangeEntry) (g1 g2 : Time)
    (httl : ttl ≤ 0) (hclock : now1 ≤ g1) (hstrict : ttl < 0 ∨ now1 < g1) :
    ((c.Set key value ttl now1 now2 order).Get key g1 g2).1 = .error { Key := key } := by
  have hlt : now1 + ttl < g1 := by
    rcases hstrict with h | h <;> linarith
  obtain ⟨hs, ht, -⟩ := Set_lookup_key c key value ttl now1 now2 order
  simp [Get, hs, ht, hlt]

/-- Witness of the amended C6: ttl `-1`, all clock readings 0. -/
theorem Get_after_Set_nonpositive_ttl_witness :
    (-1 : Duration) ≤ 0 ∧ (0 : Time) ≤ 0 ∧ ((-1 : Duration) < 0 ∨ (0 : Time) < 0) ∧
    ((sampleCash.Set "k" "w" (-1) 0 0 []).Get "k" 0 0).1 = .error { Key := "k" } :=
  ⟨by decide, by decide, by decide,
    Get_after_Set_nonpositive_ttl sampleCash "k" "w" (-1) 0 0 [] 0 0
      (by decide) (by decide) (by decide)⟩

/-! ## C7: the expiry boundary -/

/-- C7 fails as stated: on the fresh cache, `Set "k" "v" 5` at clock reading 0
followed by `Get "k"` at clock reading 5 (so `t' - t = ttl` exactly) succeeds
with `"v"`, and the key stays in `Storage`, whose size is unchanged. -/
theorem Get_at_exact_ttl_succeeds :
    (5 : Duration) ≤ 5 - 0 ∧
    (((NewCash 0 : Cash String).Set "k" "v" 5 0 0 []).Get "k" 5 5).1 = .ok "v" ∧
    (((NewCash 0 : Cash String).Set "k" "v" 5 0 0 []).Get "k" 5 5).2.Storage.lookup "k" =
      some "v" ∧
    len (((NewCash 0 : Cash String).Set "k" "v" 5 0 0 []).Get "k" 5 5).2.Storage =
      len ((NewCash 0 : Cash String).Set "k" "v" 5 0 0 []).Storage := by
  decide

/-- C7 (amended). If `Set key value ttl` computes the expiry from the clock
reading `t` and the next operation is `Get key` at a clock reading `g1` with
`g1 - t > ttl`, then that `Get` fails with `KeyNotFound key`, the key is gone
from all three maps, and `Storage` holds one entry less than before the `Get`. -/
theorem Get_after_expiry (c : Cash V) (key : String) (value : V) (ttl : Duration)
    (t now2 : Time) (order : List RangeEntry) (g1 g2 : Time) (h : ttl < g1 - t) :
    ((c.Set key value ttl t now2 order).Get key g1 g2).1 = .error { Key := key } ∧
    key ∉ ((c.Set key value ttl t now2 order).Get key g1 g2).2.Storage ∧
    key ∉ ((c.Set key value ttl t now2 order).Get key g1 g2).2.TTL ∧
    key ∉ ((c.Set key value ttl t now2 order).Get key g1 g2).2.LastAccess ∧
    len ((c.Set key value ttl t now2 order).Get key g1 g2).2.Storage + 1 =
      len (c.Set key value ttl t now2 order).Storage := by
  have hlt : t + ttl < g1 := by linarith
  obtain ⟨hs, ht, -⟩ := Set_lookup_key c key value ttl t now2 order
  have hmem : key ∈ (c.Set key value ttl t now2 order).Storage :=
    Finmap.mem_of_lookup_eq_some hs
  have hget : (c.Set key value ttl t now2 order).Get key g1 g2 =
      (.error { Key := key }, (c.Set key value ttl t now2 order).DeleteKey key) := by
    simp [Get, hs, ht, hlt]
  rw [hget]
  refine ⟨rfl, Finmap.not_mem_erase_self, Finmap.not_mem_erase_self,
    Finmap.not_mem_erase_self, ?_⟩
  exact GoMap.len_erase_of_mem _ key hmem

/-- Witness of the amended C7: ttl 5, `Set` at clock reading 0, `Get` at 6. -/
theorem Get_after_expiry_witness :
    (5 : Duration) < 6 - 0 ∧
    ((sampleCash.Set "k2" "w" 5 0 0 []).Get "k2" 6 6).1 = .error { Key := "k2" } ∧
    len ((sampleCash.Set "k2" "w" 5 0 0 []).Get "k2" 6 6).2.Storage + 1 =
      len (sampleCash.Set "k2" "w" 5 0 0 []).Storage :=
  ⟨by decide,
    (Get_after_expiry sampleCash "k2" "w" 5 0 0 [] 6 6 (by decide)).1,
    (Get_after_expiry sampleCash "k2" "w" 5 0 0 [] 6 6 (by decide)).2.2.2.2⟩

/-! ## C8: round trip before expiry -/

/-- C8. Round trip before expiry (P2): if `Set key value ttl` computes the
expiry from the clock reading `t` and the next operation is `Get key` at the
clock reading `t + d` with `ttl > d`, then that `Get` succeeds with no error and
returns exactly `value`. -/
theorem Get_after_Set_before_expiry (c : Cash V) (key : String) (value : V)
    (ttl d : Duration) (t now2 : Time) (order : List RangeEntry) (g2 : Time)
    (h : d < ttl) :
    ((c.Set key value ttl t now2 order).Get key (t + d) g2).1 = .ok value := by
  have hge : ¬ t + ttl < t + d := by linarith
  obtain ⟨hs, ht, -⟩ := Set_lookup_key c key value ttl t now2 order
  simp [Get, hs, ht, hge]

/-- Witness of C8: ttl 5, waiting 4, from clock reading 7. -/
theorem Get_after_Set_before_expiry_witness :
    (4 : Duration) < 5 ∧
    ((sampleCash.Set "k" "w" 5 7 7 []).Get "k" (7 + 4) 11).1 = .ok "w" :=
  ⟨by decide, Get_after_Set_before_expiry sampleCash "k" "w" 5 4 7 7 [] 11 (by decide)⟩

/-! ## C9: overwrite -/

/-- C9. Overwrite (P7): after `Set K v1 t1` followed directly by `Set K v2 t2`
with clock readings `b1` (expiry) and `b2` (last access), `K` occurs exactly
once among the keys of each of the three maps, `Storage[K] = v2`,
`TTL[K] = b1 + t2`, `LastAccess[K] = b2`, and every entry stored under `K`
carries these values (nothing of `v1` or `t1` remains); this for every state,
capacity and iteration order, so also when the second `Set` evicts. -/
theorem Set_overwrite (c : Cash V) (K : String) (v1 v2 : V) (t1 t2 : Duration)
    (a1 a2 b1 b2 : Time) (order1 order2 : List RangeEntry) :
    (((c.Set K v1 t1 a1 a2 order1).Set K v2 t2 b1 b2 order2).Storage.entries.keys.count K = 1 ∧
     ((c.Set K v1 t1 a1 a2 order1).Set K v2 t2 b1 b2 order2).TTL.entries.keys.count K = 1 ∧
     ((c.Set K v1 t1 a1 a2 order1).Set K v2 t2 b1 b2 order2).LastAccess.entries.keys.count K
        = 1) ∧
    (((c.Set K v1 t1 a1 a2 order1).Set K v2 t2 b1 b2 order2).Storage.lookup K = some v2 ∧
     ((c.Set K v1 t1 a1 a2 order1).Set K v2 t2 b1 b2 order2).TTL.lookup K = some (b1 + t2) ∧
     ((c.Set K v1 t1 a1 a2 order1).Set K v2 t2 b1 b2 order2).LastAccess.lookup K = some b2) ∧
    ((∀ v, (⟨K, v⟩ : Σ _ : String, V) ∈
          ((c.Set K v1 t1 a1 a2 order1).Set K v2 t2 b1 b2 order2).Storage.entries → v = v2) ∧
     (∀ e, (⟨K, e⟩ : RangeEntry) ∈
          ((c.Set K v1 t1 a1 a2 order1).Set K v2 t2 b1 b2 order2).TTL.entries → e = b1 + t2) ∧
     (∀ a, (⟨K, a⟩ : RangeEntry) ∈
          ((c.Set K v1 t1 a1 a2 order1).Set K v2 t2 b1 b2 order2).LastAccess.entries →
          a = b2)) := by
  obtain ⟨hs, ht, ha⟩ := Set_lookup_key (c.Set K v1 t1 a1 a2 order1) K v2 t2 b1 b2 order2
  refine ⟨⟨?_, ?_, ?_⟩, ⟨hs, ht, ha⟩, ⟨?_, ?_, ?_⟩⟩
  · exact GoMap.count_key_of_mem _ K (Finmap.mem_of_lookup_eq_some hs)
  · exact GoMap.count_key_of_mem _ K (Finmap.mem_of_lookup_eq_some ht)
  · exact GoMap.count_key_of_mem _ K (Finmap.mem_of_lookup_eq_some ha)
  · intro v hv
    have hl := Finmap.lookup_eq_some_iff.mpr hv
    rw [hs] at hl
    exact (Option.some.inj hl).symm
  · intro e he
    have hl := Finmap.lookup_eq_some_iff.mpr he
    rw [ht] at hl
    exact (Option.some.inj hl).symm
  · intro a hm
    have hl := Finmap.lookup_eq_some_iff.mpr hm
    rw [ha] at hl
    exact (Option.some.inj hl).symm

/-- Witness of C9 on the full state `victimCash`: `b` is written twice; each
`Set` trips the capacity check, the first evicts `b` itself before re-inserting
it, the second evicts `a`. -/
theorem Set_overwrite_witness :
    victimCash.SameKeys ∧
    victimCash.evict victimOrder = victimCash.DeleteKey "b" ∧
    IsRangeOf [⟨"", 1⟩, ⟨"b", 20⟩, ⟨"a", 5⟩]
      (victimCash.Set "b" "x" 7 20 20 victimOrder).LastAccess ∧
    ((victimCash.Set "b" "x" 7 20 20 victimOrder).Set "b" "y" 8 30 31
        [⟨"", 1⟩, ⟨"b", 20⟩, ⟨"a", 5⟩]).Storage.lookup "a" = none ∧
    ((victimCash.Set "b" "x" 7 20 20 victimOrder).Set "b" "y" 8 30 31
        [⟨"", 1⟩, ⟨"b", 20⟩, ⟨"a", 5⟩]).Storage.lookup "b" = some "y" ∧
    ((victimCash.Set "b" "x" 7 20 20 victimOrder).Set "b" "y" 8 30 31
        [⟨"", 1⟩, ⟨"b", 20⟩, ⟨"a", 5⟩]).TTL.lookup "b" = some (30 + 8) ∧
    ((victimCash.Set "b" "x" 7 20 20 victimOrder).Set "b" "y" 8 30 31
        [⟨"", 1⟩, ⟨"b", 20⟩, ⟨"a", 5⟩]).LastAccess.lookup "b" = some 31 :=
  ⟨by decide, by decide, by decide, by decide,
    (Set_overwrite victimCash "b" "x" "y" 7 8 20 20 30 31 victimOrder
      [⟨"", 1⟩, ⟨"b", 20⟩, ⟨"a", 5⟩]).2.1⟩

/-! ## C10: access refresh -/

/-- C10. Access refresh (P6 / I3): when `Get K` succeeds, the resulting state
has `LastAccess[K]` equal to the clock reading `now2` taken for the refresh, and
everything else is unchanged: `Storage`, `TTL`, `Capacity` and the `LastAccess`
of every other key are as before the call. -/
theorem Get_success_refresh (c : Cash V) (K : String) (now1 now2 : Time) (v : V)
    (h : (c.Get K now1 now2).1 = .ok v) :
    (c.Get K now1 now2).2.LastAccess.lookup K = some now2 ∧
    (c.Get K now1 now2).2.Storage = c.Storage ∧
    (c.Get K now1 now2).2.TTL = c.TTL ∧
    (c.Get K now1 now2).2.Capacity = c.Capacity ∧
    (∀ k, k ≠ K →
      (c.Get K now1 now2).2.LastAccess.lookup k = c.LastAccess.lookup k) := by
  have hstate : (c.Get K now1 now2).2 =
      { c with LastAccess := c.LastAccess.insert K now2 } := by
    cases hs : c.Storage.lookup K with
    | none => simp [Get, hs] at h
    | some w =>
      cases ht : c.TTL.lookup K with
      | none => simp [Get, hs, ht]
      | some e =>
        by_cases hlt : e < now1
        · simp [Get, hs, ht, hlt] at h
        · simp [Get, hs, ht, hlt]
  rw [hstate]
  refine ⟨Finmap.lookup_insert _, rfl, rfl, rfl, ?_⟩
  intro k hk
  exact Finmap.lookup_insert_of_ne _ hk

/-- Witness of C10 on `victimCash`: `Get "a"` at clock reading 10 succeeds with
`"v1"`; `a` is then last accessed at 10 and `b` still at 9. -/
theorem Get_success_refresh_witness :
    (victimCash.Get "a" 10 10).1 = .ok "v1" ∧
    (victimCash.Get "a" 10 10).2.LastAccess.lookup "a" = some 10 ∧
    (victimCash.Get "a" 10 10).2.LastAccess.lookup "b" = victimCash.LastAccess.lookup "b" :=
  ⟨by decide,
    (Get_success_refresh victimCash "a" 10 10 "v1" (by decide)).1,
    (Get_success_refresh victimCash "a" 10 10 "v1" (by decide)).2.2.2.2 "b" (by decide)⟩

end Cash

namespace Cash

variable {V : Type}

/-! ## C11: a miss leaves the cache alone -/

/-- C11. Miss leaves the cache alone (P8): for every state and every key not
present in `Storage`, `Get key` fails with `KeyNotFound key` and the state after
the call is the state before it; in particular the size of `Storage` is
unchanged. -/
theorem Get_miss_unchanged (c : Cash V) (key : String) (now1 now2 : Time)
    (h : key ∉ c.Storage) :
    (c.Get key now1 now2).1 = .error { Key := key } ∧
    (c.Get key now1 now2).2 = c ∧
    len (c.Get key now1 now2).2.Storage = len c.Storage := by
  have hnone : c.Storage.lookup key = none := Finmap.lookup_eq_none.mpr h
  simp [Get, hnone]

/-- Witness of C11 on `victimCash`: the key `z` was never set. -/
theorem Get_miss_unchanged_witness :
    "z" ∉ victimCash.Storage ∧
    (victimCash.Get "z" 10 10).1 = .error { Key := "z" } ∧
    (victimCash.Get "z" 10 10).2 = victimCash :=
  ⟨by decide,
    (Get_miss_unchanged victimCash "z" 10 10 (by decide)).1,
    (Get_miss_unchanged victimCash "z" 10 10 (by decide)).2.1⟩

/-! ## C13: `DeleteKey` -/

/-- C13. `DeleteKey`: after `DeleteKey key` the key is absent from `Storage`,
`TTL` and `LastAccess`; every other key keeps its value, expiry and last access;
`Capacity` is unchanged; if the key was absent from all three maps the state is
unchanged; and `DeleteKey key` twice is `DeleteKey key` once. -/
theorem DeleteKey_spec (c : Cash V) (key : String) :
    (key ∉ (c.DeleteKey key).Storage ∧ key ∉ (c.DeleteKey key).TTL ∧
      key ∉ (c.DeleteKey key).LastAccess) ∧
    (∀ k, k ≠ key →
      (c.DeleteKey key).Storage.lookup k = c.Storage.lookup k ∧
      (c.DeleteKey key).TTL.lookup k = c.TTL.lookup k ∧
      (c.DeleteKey key).LastAccess.lookup k = c.LastAccess.lookup k) ∧
    (c.DeleteKey key).Capacity = c.Capacity ∧
    (key ∉ c.Storage → key ∉ c.TTL → key ∉ c.LastAccess → c.DeleteKey key = c) ∧
    (c.DeleteKey key).DeleteKey key = c.DeleteKey key := by
  refine ⟨⟨Finmap.not_mem_erase_self, Finmap.not_mem_erase_self, Finmap.not_mem_erase_self⟩,
    ?_, rfl, ?_, ?_⟩
  · intro k hk
    exact ⟨Finmap.lookup_erase_ne hk, Finmap.lookup_erase_ne hk, Finmap.lookup_erase_ne hk⟩
  · intro hs ht ha
    cases c
    simp only [DeleteKey] at hs ht ha ⊢
    rw [GoMap.erase_of_not_mem _ _ hs, GoMap.erase_of_not_mem _ _ ht,
      GoMap.erase_of_not_mem _ _ ha]
  · cases c
    simp only [DeleteKey]
    rw [GoMap.erase_of_not_mem _ _ Finmap.not_mem_erase_self,
      GoMap.erase_of_not_mem _ _ Finmap.not_mem_erase_self,
      GoMap.erase_of_not_mem _ _ Finmap.not_mem_erase_self]

/-- Witness of C13 on `victimCash`: `a` is deleted, `b` keeps its entry, and
deleting the absent key `z` changes nothing. -/
theorem DeleteKey_spec_witness :
    ("b" ≠ "a" ∧
      (victimCash.DeleteKey "a").Storage.lookup "b" = victimCash.Storage.lookup "b") ∧
    ("z" ∉ victimCash.Storage ∧ "z" ∉ victimCash.TTL ∧ "z" ∉ victimCash.LastAccess ∧
      victimCash.DeleteKey "z" = victimCash) :=
  ⟨⟨by decide, ((DeleteKey_spec victimCash "a").2.1 "b" (by decide)).1⟩,
    by decide, by decide, by decide,
    (DeleteKey_spec victimCash "z").2.2.2.1 (by decide) (by decide) (by decide)⟩

/-! ## C14: the default capacity -/

/-- C14. Default capacity: for every value `frees` of the 64-bit unsigned `Frees`
counter, `getDefaultCapacity` returns `max 100 (frees / 10240)` (floor division);
the conversion to `int` does not overflow (the quotient is below `2 ^ 63` and is
converted exactly); the result is at least 100; dividing by 1024 and then by 10
equals dividing by 10240; and `NewCash` stores exactly this value as
`Capacity`. -/
theorem getDefaultCapacity_spec (frees : Nat) (h : frees < 2 ^ 64) :
    getDefaultCapacity frees = max 100 ((frees / 10240 : Nat) : Int) ∧
    (frees / 1024 / 10 < 2 ^ 63 ∧
      intOfUint64 (frees / 1024 / 10) = ((frees / 1024 / 10 : Nat) : Int)) ∧
    100 ≤ getDefaultCapacity frees ∧
    frees / 1024 / 10 = frees / 10240 ∧
    (NewCash frees : Cash V).Capacity = getDefaultCapacity frees := by
  have hdiv : frees / 1024 / 10 = frees / 10240 := by
    rw [Nat.div_div_eq_div_mul]
  have hlt : frees / 10240 < 2 ^ 63 := by omega
  have hmod : frees / 10240 % 2 ^ 64 = frees / 10240 := by omega
  have hconv : intOfUint64 (frees / 10240) = ((frees / 10240 : Nat) : Int) := by
    unfold intOfUint64
    rw [hmod, if_pos hlt]
  have hfrees : frees % 2 ^ 64 = frees := Nat.mod_eq_of_lt h
  have hval : getDefaultCapacity frees = max 100 ((frees / 10240 : Nat) : Int) := by
    unfold getDefaultCapacity
    simp only [hfrees, hdiv, hconv]
    split <;> omega
  refine ⟨hval, ⟨by rw [hdiv]; exact hlt, by rw [hdiv]; exact hconv⟩, ?_, hdiv, rfl⟩
  rw [hval]
  exact le_max_left _ _

/-- Witness of C14: `Frees = 2048000` gives capacity 200. -/
theorem getDefaultCapacity_spec_witness :
    2048000 < 2 ^ 64 ∧
    getDefaultCapacity 2048000 = max 100 ((2048000 / 10240 : Nat) : Int) ∧
    (NewCash 2048000 : Cash String).Capacity = getDefaultCapacity 2048000 :=
  ⟨by decide,
    (getDefaultCapacity_spec (V := String) 2048000 (by decide)).1,
    (getDefaultCapacity_spec (V := String) 2048000 (by decide)).2.2.2.2⟩

end Cash

namespace Cash

variable {V : Type}

/-! ## The scan of `evict` -/

/-- Started from a non-empty `oldestKey`, over entries with non-empty keys, the
scan ends on the start pair or on an entry of the list, with a time not after
the start time nor after any time of the list. -/
theorem evictScan_foldl (l : List RangeEntry) :
    ∀ acc : String × Time, acc.1 ≠ "" → (∀ e ∈ l, e.1 ≠ "") →
      (l.foldl evictScan acc).1 ≠ "" ∧
      (l.foldl evictScan acc = acc ∨
        (⟨(l.foldl evictScan acc).1, (l.foldl evictScan acc).2⟩ : RangeEntry) ∈ l) ∧
      (l.foldl evictScan acc).2 ≤ acc.2 ∧
      ∀ e ∈ l, (l.foldl evictScan acc).2 ≤ e.2 := by
  induction l with
  | nil =>
    intro acc hacc _
    exact ⟨hacc, Or.inl rfl, le_refl _, fun e he => absurd he (List.not_mem_nil e)⟩
  | cons e0 l ih =>
    intro acc hacc hl
    have hl' : ∀ e ∈ l, e.1 ≠ "" := fun e he => hl e (List.mem_cons_of_mem _ he)
    have he0 : e0.1 ≠ "" := hl e0 (List.mem_cons_self _ _)
    rw [List.foldl_cons]
    by_cases hlt : e0.2 < acc.2
    · have hstep : evictScan acc e0 = (e0.1, e0.2) := by
        simp [evictScan, hlt]
      rw [hstep]
      obtain ⟨h1, h2, h3, h4⟩ := ih (e0.1, e0.2) he0 hl'
      refine ⟨h1, Or.inr ?_, le_trans h3 (le_of_lt hlt), ?_⟩
      · rcases h2 with h2 | h2
        · rw [h2]
          exact List.mem_cons_self _ _
        · exact List.mem_cons_of_mem _ h2
      · intro e he
        rcases List.mem_cons.mp he with rfl | he
        · exact h3
        · exact h4 e he
    · have hstep : evictScan acc e0 = acc := by
        simp [evictScan, hlt, hacc]
      rw [hstep]
      obtain ⟨h1, h2, h3, h4⟩ := ih acc hacc hl'
      refine ⟨h1, ?_, h3, ?_⟩
      · rcases h2 with h2 | h2
        · exact Or.inl h2
        · exact Or.inr (List.mem_cons_of_mem _ h2)
      · intro e he
        rcases List.mem_cons.mp he with rfl | he
        · exact le_trans h3 (not_lt.mp hlt)
        · exact h4 e he

/-- Over a non-empty list of entries with non-empty keys, the scan of `evict`
ends on an entry of the list whose time is not after any time of the list. -/
theorem evictOldest_min (order : List RangeEntry) (hne : order ≠ [])
    (hl : ∀ e ∈ order, e.1 ≠ "") :
    (evictOldest order).1 ≠ "" ∧
    (⟨(evictOldest order).1, (evictOldest order).2⟩ : RangeEntry) ∈ order ∧
    ∀ e ∈ order, (evictOldest order).2 ≤ e.2 := by
  cases order with
  | nil => exact absurd rfl hne
  | cons e0 l =>
    have hl' : ∀ e ∈ l, e.1 ≠ "" := fun e he => hl e (List.mem_cons_of_mem _ he)
    have he0 : e0.1 ≠ "" := hl e0 (List.mem_cons_self _ _)
    have hstart : evictOldest (e0 :: l) = l.foldl evictScan (e0.1, e0.2) := by
      simp [evictOldest, evictScan]
    rw [hstart]
    obtain ⟨h1, h2, h3, h4⟩ := evictScan_foldl l (e0.1, e0.2) he0 hl'
    refine ⟨h1, ?_, ?_⟩
    · rcases h2 with h2 | h2
      · rw [h2]
        exact List.mem_cons_self _ _
      · exact List.mem_cons_of_mem _ h2
    · intro e he
      rcases List.mem_cons.mp he with rfl | he
      · exact h3
      · exact h4 e he

/-- An entry is yielded by a `range` over `m` iff `m` holds it. -/
theorem IsRangeOf_mem_iff {order : List RangeEntry} {m : GoMap Time}
    (h : IsRangeOf order m) (k : String) (t : Time) :
    (⟨k, t⟩ : RangeEntry) ∈ order ↔ m.lookup k = some t := by
  unfold IsRangeOf at h
  rw [Finmap.lookup_eq_some_iff, ← h]
  exact Iff.rfl

/-- In a lockstep state without the empty key and with at least one entry,
`evict` deletes one key of the state, and that key has the minimum last access. -/
theorem evict_of_no_empty_key (c : Cash V) (order : List RangeEntry) (hsame : c.SameKeys)
    (hr : IsRangeOf order c.LastAccess) (hno : "" ∉ c.Storage) (hpos : 0 < len c.Storage) :
    ∃ k t, k ≠ "" ∧ k ∈ c.Storage ∧ c.LastAccess.lookup k = some t ∧
      (∀ k' t', c.LastAccess.lookup k' = some t' → t ≤ t') ∧
      c.evict order = c.DeleteKey k := by
  have hkeys : ∀ k, k ∈ c.LastAccess ↔ k ∈ c.Storage := by
    intro k
    rw [← Finmap.mem_keys, ← Finmap.mem_keys, hsame.1, hsame.2]
  have hl : ∀ e ∈ order, e.1 ≠ "" := by
    intro e he hempty
    have hlook : c.LastAccess.lookup e.1 = some e.2 := (IsRangeOf_mem_iff hr e.1 e.2).mp he
    exact hno ((hkeys e.1).mp (Finmap.mem_of_lookup_eq_some hlook) |> (hempty ▸ ·))
  have hne : order ≠ [] := by
    intro hnil
    obtain ⟨k, hk⟩ := Finset.card_pos.mp hpos
    have hk' : k ∈ c.LastAccess := (hkeys k).mpr (Finmap.mem_keys.mp hk)
    obtain ⟨t, ht⟩ := Finmap.mem_iff.mp hk'
    have := (IsRangeOf_mem_iff hr k t).mpr ht
    rw [hnil] at this
    exact List.not_mem_nil _ this
  obtain ⟨h1, h2, h3⟩ := evictOldest_min order hne hl
  have hlook := (IsRangeOf_mem_iff hr _ _).mp h2
  refine ⟨(evictOldest order).1, (evictOldest order).2, h1,
    (hkeys _).mp (Finmap.mem_of_lookup_eq_some hlook), hlook, ?_, ?_⟩
  · intro k' t' hk'
    exact h3 ⟨k', t'⟩ ((IsRangeOf_mem_iff hr k' t').mpr hk')
  · simp [evict, h1]

end Cash

namespace Cash

variable {V : Type}

/-! ## C12: how many entries a `Set` removes -/

/-- C12, the code at a failing input.  `onlyEmptyKeyCash` is in lockstep, its
`Storage` is non-empty and full (one entry, capacity 1).  `Set "a"` runs `evict`
with the only possible iteration order; the scan ends with `oldestKey` equal to
the empty string, so nothing is deleted: no pre-existing entry is removed, the
key set after the call is the old key set plus `a`, and `Storage` grows from one
entry to two. -/
theorem Set_at_capacity_removes_nothing :
    onlyEmptyKeyCash.SameKeys ∧
    0 < len onlyEmptyKeyCash.Storage ∧
    onlyEmptyKeyCash.Capacity ≤ (len onlyEmptyKeyCash.Storage : Int) ∧
    IsRangeOf [⟨"", 1⟩] onlyEmptyKeyCash.LastAccess ∧
    (evictOldest [⟨"", 1⟩]).1 = "" ∧
    onlyEmptyKeyCash.evict [⟨"", 1⟩] = onlyEmptyKeyCash ∧
    (onlyEmptyKeyCash.Set "a" "v1" 100 5 5 [⟨"", 1⟩]).Storage.keys =
      insert "a" onlyEmptyKeyCash.Storage.keys ∧
    len (onlyEmptyKeyCash.Set "a" "v1" 100 5 5 [⟨"", 1⟩]).Storage =
      len onlyEmptyKeyCash.Storage + 1 := by
  decide

/-! ## C17: an overwrite at capacity evicts a bystander -/

/-- C17. Overwrite at capacity evicts a bystander: there are a state in lockstep
with size of `Storage` at least the capacity, a key `K` already present and a key
`K'` different from `K`, such that `Set K v ttl` (with an iteration order of
`LastAccess`) removes `K'` from all three maps and leaves `Storage` with one
entry fewer than before the overwrite. -/
theorem overwrite_at_capacity_evicts_bystander :
    ∃ (c : Cash String) (K K' v : String) (ttl : Duration) (now1 now2 : Time)
      (order : List RangeEntry),
      c.SameKeys ∧ c.Capacity ≤ (len c.Storage : Int) ∧ K ∈ c.Storage ∧
      IsRangeOf order c.LastAccess ∧ K' ≠ K ∧ K' ∈ c.Storage ∧
      K' ∉ (c.Set K v ttl now1 now2 order).Storage ∧
      K' ∉ (c.Set K v ttl now1 now2 order).TTL ∧
      K' ∉ (c.Set K v ttl now1 now2 order).LastAccess ∧
      len (c.Set K v ttl now1 now2 order).Storage + 1 = len c.Storage :=
  ⟨pairCash, "b", "a", "w", 100, 5, 5, [⟨"a", 1⟩, ⟨"b", 2⟩], by decide⟩

/-! ## C18: expiry is lazy -/

/-- C18. Lazy-only expiry: `evict` and `Set` never look at expiry times (with any
other content of `TTL` they leave the same `Storage` and `LastAccess`); an entry
whose expiry is strictly before the clock reading still counts in the size
compared with the capacity (when the count including it reaches the capacity,
`Set` runs `evict`); and there are a state and a clock reading at which `Set`
evicts an entry that has not expired while an expired entry with a later last
access stays in `Storage`. -/
theorem expiry_is_lazy :
    (∀ (c : Cash V) (ttlMap : GoMap Time) (order : List RangeEntry),
      (evict { c with TTL := ttlMap } order).Storage = (c.evict order).Storage ∧
      (evict { c with TTL := ttlMap } order).LastAccess = (c.evict order).LastAccess) ∧
    (∀ (c : Cash V) (ttlMap : GoMap Time) (key : String) (value : V) (ttl : Duration)
        (now1 now2 : Time) (order : List RangeEntry),
      (Set { c with TTL := ttlMap } key value ttl now1 now2 order).Storage =
        (c.Set key value ttl now1 now2 order).Storage ∧
      (Set { c with TTL := ttlMap } key value ttl now1 now2 order).LastAccess =
        (c.Set key value ttl now1 now2 order).LastAccess) ∧
    (∀ (c : Cash V) (old : String) (e : Time) (key : String) (value : V) (ttl : Duration)
        (now1 now2 : Time) (order : List RangeEntry),
      old ∈ c.Storage → c.TTL.lookup old = some e → e < now1 →
      c.Capacity ≤ ((len (c.Storage.erase old) + 1 : Nat) : Int) →
      (c.Set key value ttl now1 now2 order).Storage =
        (c.evict order).Storage.insert key value) ∧
    (∃ (c : Cash String) (now : Time) (x y : String) (ex ey ax ay : Time)
        (order : List RangeEntry),
      c.SameKeys ∧ IsRangeOf order c.LastAccess ∧
      c.TTL.lookup x = some ex ∧ ¬ ex < now ∧
      c.TTL.lookup y = some ey ∧ ey < now ∧
      c.LastAccess.lookup x = some ax ∧ c.LastAccess.lookup y = some ay ∧ ax < ay ∧
      x ∉ (c.Set "z" "w" 100 now now order).Storage ∧
      y ∈ (c.Set "z" "w" 100 now now order).Storage) := by
  refine ⟨?_, ?_, ?_, ?_⟩
  · intro c ttlMap order
    unfold evict
    dsimp only
    split <;> exact ⟨rfl, rfl⟩
  · intro c ttlMap key value ttl now1 now2 order
    unfold Set evict
    dsimp only
    split
    · split <;> exact ⟨rfl, rfl⟩
    · exact ⟨rfl, rfl⟩
  · intro c old e key value ttl now1 now2 order hmem _ _ hcap
    rw [GoMap.len_erase_of_mem _ old hmem] at hcap
    simp [Set, hcap]
  · exact ⟨staleCash, 50, "x", "y", 100, 10, 1, 2, [⟨"x", 1⟩, ⟨"y", 2⟩], by decide⟩

/-- Witness of C18 on `staleCash`: at clock reading 50 the entry of `y` has
expired and still makes the state full. -/
theorem expiry_is_lazy_witness :
    "y" ∈ staleCash.Storage ∧ staleCash.TTL.lookup "y" = some 10 ∧ (10 : Time) < 50 ∧
    staleCash.Capacity ≤ ((len (staleCash.Storage.erase "y") + 1 : Nat) : Int) ∧
    (staleCash.Set "z" "w" 100 50 50 [⟨"x", 1⟩, ⟨"y", 2⟩]).Storage =
      (staleCash.evict [⟨"x", 1⟩, ⟨"y", 2⟩]).Storage.insert "z" "w" :=
  ⟨by decide, by decide, by decide, by decide,
    expiry_is_lazy.2.2.1 staleCash "y" 10 "z" "w" 100 50 50 [⟨"x", 1⟩, ⟨"y", 2⟩]
      (by decide) (by decide) (by decide) (by decide)⟩

end Cash

namespace Cash

variable {V : Type}

/-! ## C19: the empty key is never evicted -/

/-- The empty key keeps its entries through `evict`, whatever the order. -/
theorem evict_lookup_empty_key (c : Cash V) (order : List RangeEntry) :
    (c.evict order).Storage.lookup "" = c.Storage.lookup "" ∧
    (c.evict order).TTL.lookup "" = c.TTL.lookup "" ∧
    (c.evict order).LastAccess.lookup "" = c.LastAccess.lookup "" := by
  unfold evict
  dsimp only
  split
  · rename_i hne
    have hne' : "" ≠ (evictOldest order).1 := fun h => hne h.symm
    exact ⟨Finmap.lookup_erase_ne hne', Finmap.lookup_erase_ne hne',
      Finmap.lookup_erase_ne hne'⟩
  · exact ⟨rfl, rfl, rfl⟩

/-- On a lockstep state whose only key is the empty string, `evict` changes
nothing, whatever the order. -/
theorem evict_only_empty_key (c : Cash V) (order : List RangeEntry) (hsame : c.SameKeys)
    (honly : c.Storage.keys = {""}) : c.evict order = c := by
  unfold evict
  dsimp only
  split
  · rename_i hne
    have hs : (evictOldest order).1 ∉ c.Storage := by
      rw [← Finmap.mem_keys, honly, Finset.mem_singleton]
      exact hne
    have ht : (evictOldest order).1 ∉ c.TTL := by
      rw [← Finmap.mem_keys, ← hsame.1, honly, Finset.mem_singleton]
      exact hne
    have ha : (evictOldest order).1 ∉ c.LastAccess := by
      rw [← Finmap.mem_keys, ← hsame.2, ← hsame.1, honly, Finset.mem_singleton]
      exact hne
    cases c
    simp only [DeleteKey] at hs ht ha ⊢
    rw [GoMap.erase_of_not_mem _ _ hs, GoMap.erase_of_not_mem _ _ ht,
      GoMap.erase_of_not_mem _ _ ha]
  · rfl

/-- C19. The empty-string key is never evicted: for every state and every
iteration order, `evict` leaves what is stored under the key `""` in place in
all three maps; on a lockstep state whose only entry has key `""`, `evict`
changes nothing; and on such a state at capacity, `Set` of a new key grows
`Storage` by one. -/
theorem empty_key_never_evicted :
    (∀ (c : Cash V) (order : List RangeEntry),
      (c.evict order).Storage.lookup "" = c.Storage.lookup "" ∧
      (c.evict order).TTL.lookup "" = c.TTL.lookup "" ∧
      (c.evict order).LastAccess.lookup "" = c.LastAccess.lookup "") ∧
    (∀ (c : Cash V) (order : List RangeEntry), c.SameKeys → c.Storage.keys = {""} →
      c.evict order = c) ∧
    (∀ (c : Cash V) (key : String) (value : V) (ttl : Duration) (now1 now2 : Time)
        (order : List RangeEntry),
      c.SameKeys → c.Storage.keys = {""} → key ≠ "" →
      c.Capacity ≤ (len c.Storage : Int) →
      len (c.Set key value ttl now1 now2 order).Storage = len c.Storage + 1) := by
  refine ⟨evict_lookup_empty_key, evict_only_empty_key, ?_⟩
  intro c key value ttl now1 now2 order hsame honly hkey hcap
  have hnew : key ∉ c.Storage := by
    rw [← Finmap.mem_keys, honly, Finset.mem_singleton]
    exact hkey
  simp only [Set, if_pos hcap, evict_only_empty_key c order hsame honly]
  exact GoMap.len_insert_of_not_mem _ key value hnew

/-- Witness of C19 on `onlyEmptyKeyCash`: `evict` changes nothing and `Set "a"`
at capacity 1 leaves two entries. -/
theorem empty_key_never_evicted_witness :
    onlyEmptyKeyCash.SameKeys ∧ onlyEmptyKeyCash.Storage.keys = {""} ∧ "a" ≠ "" ∧
    onlyEmptyKeyCash.Capacity ≤ (len onlyEmptyKeyCash.Storage : Int) ∧
    onlyEmptyKeyCash.evict [⟨"", 1⟩] = onlyEmptyKeyCash ∧
    len (onlyEmptyKeyCash.Set "a" "v1" 100 5 5 [⟨"", 1⟩]).Storage =
      len onlyEmptyKeyCash.Storage + 1 :=
  ⟨by decide, by decide, by decide, by decide,
    empty_key_never_evicted.2.1 onlyEmptyKeyCash [⟨"", 1⟩] (by decide) (by decide),
    empty_key_never_evicted.2.2 onlyEmptyKeyCash "a" "v1" 100 5 5 [⟨"", 1⟩]
      (by decide) (by decide) (by decide) (by decide)⟩

end Cash

/-! ## C20: the size bound without the empty key -/

theorem GoMap.len_insert_le {V : Type} (m : GoMap V) (k : String) (v : V) :
    len (m.insert k v) ≤ len m + 1 := by
  by_cases h : k ∈ m
  · rw [GoMap.len_insert_of_mem m k v h]
    exact Nat.le_succ _
  · rw [GoMap.len_insert_of_not_mem m k v h]

theorem GoMap.len_erase_le {V : Type} (m : GoMap V) (k : String) :
    len (m.erase k) ≤ len m := by
  unfold len
  rw [Finmap.keys_erase]
  exact Finset.card_erase_le

theorem getDefaultCapacity_ge (frees : Nat) : 100 ≤ getDefaultCapacity frees := by
  unfold getDefaultCapacity
  dsimp only
  split <;> omega

namespace Cash

variable {V : Type}

/-- The state after `Get` holds the `Storage` of the state before, or that
`Storage` without the key; the capacity is unchanged. -/
theorem Get_Storage (c : Cash V) (key : String) (now1 now2 : Time) :
    ((c.Get key now1 now2).2.Storage = c.Storage ∨
      (c.Get key now1 now2).2.Storage = c.Storage.erase key) ∧
    (c.Get key now1 now2).2.Capacity = c.Capacity := by
  unfold Get
  split
  · exact ⟨Or.inl rfl, rfl⟩
  · split
    · split
      · exact ⟨Or.inr rfl, rfl⟩
      · exact ⟨Or.inl rfl, rfl⟩
    · exact ⟨Or.inl rfl, rfl⟩

/-- In a lockstep state without the empty key whose size is within a capacity of
at least 1, a `Set` with a non-empty key (handed an iteration order of
`LastAccess` when its capacity check trips) leaves a lockstep state without the
empty key, with the same capacity and a size within it. -/
theorem Set_keeps_bound (c : Cash V) (key : String) (value : V) (ttl : Duration)
    (now1 now2 : Time) (order : List RangeEntry) (hcap : 1 ≤ c.Capacity)
    (hsame : c.SameKeys) (hno : "" ∉ c.Storage) (hlen : (len c.Storage : Int) ≤ c.Capacity)
    (hkey : key ≠ "")
    (hr : c.Capacity ≤ (len c.Storage : Int) → IsRangeOf order c.LastAccess) :
    (c.Set key value ttl now1 now2 order).Capacity = c.Capacity ∧
    (c.Set key value ttl now1 now2 order).SameKeys ∧
    "" ∉ (c.Set key value ttl now1 now2 order).Storage ∧
    (len (c.Set key value ttl now1 now2 order).Storage : Int) ≤ c.Capacity := by
  have hsk := SameKeys_Set c hsame key value ttl now1 now2 order
  by_cases hfull : c.Capacity ≤ (len c.Storage : Int)
  · have hpos : 0 < len c.Storage := by omega
    obtain ⟨k, t, -, hk, -, -, hev⟩ :=
      evict_of_no_empty_key c order hsame (hr hfull) hno hpos
    have hst : (c.Set key value ttl now1 now2 order).Storage =
        (c.Storage.erase k).insert key value := by
      simp [Set, hfull, hev, DeleteKey]
    have hcp : (c.Set key value ttl now1 now2 order).Capacity = c.Capacity := by
      simp [Set, hfull, hev, DeleteKey]
    refine ⟨hcp, hsk, ?_, ?_⟩
    · rw [hst, Finmap.mem_insert, Finmap.mem_erase]
      rintro (h | ⟨-, h⟩)
      · exact hkey h.symm
      · exact hno h
    · rw [hst]
      have h1 := GoMap.len_insert_le (c.Storage.erase k) key value
      have h2 := GoMap.len_erase_of_mem c.Storage k hk
      omega
  · have hst : (c.Set key value ttl now1 now2 order).Storage = c.Storage.insert key value := by
      simp [Set, hfull]
    have hcp : (c.Set key value ttl now1 now2 order).Capacity = c.Capacity := by
      simp [Set, hfull]
    refine ⟨hcp, hsk, ?_, ?_⟩
    · rw [hst, Finmap.mem_insert]
      rintro (h | h)
      · exact hkey h.symm
      · exact hno h
    · rw [hst]
      have h1 := GoMap.len_insert_le c.Storage key value
      omega

/-- One admissible call keeps the state in lockstep, without the empty key, with
its capacity and with a size within it. -/
theorem step_keeps_bound (c : Cash V) (op : Op V) (hcap : 1 ≤ c.Capacity)
    (hsame : c.SameKeys) (hno : "" ∉ c.Storage) (hlen : (len c.Storage : Int) ≤ c.Capacity)
    (hadm : Admissible c op) :
    (step c op).Capacity = c.Capacity ∧ (step c op).SameKeys ∧ "" ∉ (step c op).Storage ∧
    (len (step c op).Storage : Int) ≤ c.Capacity := by
  cases op with
  | set key value ttl now1 now2 order =>
    exact Set_keeps_bound c key value ttl now1 now2 order hcap hsame hno hlen hadm.1 hadm.2
  | get key now1 now2 =>
    obtain ⟨hst, hcp⟩ := Get_Storage c key now1 now2
    refine ⟨hcp, SameKeys_Get c hsame key now1 now2, ?_, ?_⟩
    · show "" ∉ (c.Get key now1 now2).2.Storage
      rcases hst with h | h
      · rw [h]
        exact hno
      · rw [h, Finmap.mem_erase]
        exact fun hm => hno hm.2
    · show (len (c.Get key now1 now2).2.Storage : Int) ≤ c.Capacity
      rcases hst with h | h
      · rw [h]
        exact hlen
      · rw [h]
        have := GoMap.len_erase_le c.Storage key
        omega
  | delete key =>
    refine ⟨rfl, SameKeys_DeleteKey c hsame key, ?_, ?_⟩
    · show "" ∉ c.Storage.erase key
      rw [Finmap.mem_erase]
      exact fun hm => hno hm.2
    · show (len (c.Storage.erase key) : Int) ≤ c.Capacity
      have := GoMap.len_erase_le c.Storage key
      omega

/-- An admissible sequence of calls keeps the size within the capacity. -/
theorem run_keeps_bound (ops : List (Op V)) :
    ∀ c : Cash V, 1 ≤ c.Capacity → c.SameKeys → "" ∉ c.Storage →
      (len c.Storage : Int) ≤ c.Capacity → AdmissibleRun c ops →
      (len (run c ops).Storage : Int) ≤ (run c ops).Capacity := by
  induction ops with
  | nil =>
    intro c _ _ _ hlen _
    exact hlen
  | cons op ops ih =>
    intro c hcap hsame hno hlen hadm
    obtain ⟨hcp, hsk, hno', hlen'⟩ := step_keeps_bound c op hcap hsame hno hlen hadm.1
    have hrun : run c (op :: ops) = run (step c op) ops := rfl
    rw [hrun]
    exact ih (step c op) (by rw [hcp]; exact hcap) hsk hno' (by rw [hcp]; exact hlen') hadm.2

end Cash

namespace Cash

variable {V : Type}

/-- C20. Size bound without the empty key: for every capacity at least 1 and
every lockstep state with no entry under the key `""` and size of `Storage` at
most the capacity, every `Set` with a non-empty key (new key or overwrite; its
`evict`, when it runs, iterating over `LastAccess`), every `Get` and every
`DeleteKey` yields a state whose size is again at most the capacity; hence every
state reached from the state built by `NewCash` by calls whose `Set`s never use
the empty key has size at most the capacity. -/
theorem size_bound_without_empty_key :
    (∀ c : Cash V, 1 ≤ c.Capacity → c.SameKeys → "" ∉ c.Storage →
      (len c.Storage : Int) ≤ c.Capacity →
      (∀ key value ttl now1 now2 order, key ≠ "" →
        (c.Capacity ≤ (len c.Storage : Int) → IsRangeOf order c.LastAccess) →
        (len (c.Set key value ttl now1 now2 order).Storage : Int) ≤
          (c.Set key value ttl now1 now2 order).Capacity) ∧
      (∀ key now1 now2,
        (len (c.Get key now1 now2).2.Storage : Int) ≤ (c.Get key now1 now2).2.Capacity) ∧
      (∀ key, (len (c.DeleteKey key).Storage : Int) ≤ (c.DeleteKey key).Capacity)) ∧
    (∀ (frees : Nat) (ops : List (Op V)), AdmissibleRun (NewCash frees) ops →
      (len (run (NewCash frees) ops).Storage : Int) ≤ (run (NewCash frees) ops).Capacity) := by
  constructor
  · intro c hcap hsame hno hlen
    refine ⟨?_, ?_, ?_⟩
    · intro key value ttl now1 now2 order hkey hr
      obtain ⟨hcp, -, -, h⟩ :=
        step_keeps_bound c (.set key value ttl now1 now2 order) hcap hsame hno hlen ⟨hkey, hr⟩
      rw [show (c.Set key value ttl now1 now2 order).Capacity = c.Capacity from hcp]
      exact h
    · intro key now1 now2
      obtain ⟨hcp, -, -, h⟩ :=
        step_keeps_bound c (.get key now1 now2) hcap hsame hno hlen trivial
      rw [show (c.Get key now1 now2).2.Capacity = c.Capacity from hcp]
      exact h
    · intro key
      obtain ⟨-, -, -, h⟩ := step_keeps_bound c (.delete key) hcap hsame hno hlen trivial
      exact h
  · intro frees ops hadm
    have hcap : (1 : Int) ≤ (NewCash frees : Cash V).Capacity :=
      le_trans (by decide) (getDefaultCapacity_ge frees)
    have hzero : (len (NewCash frees : Cash V).Storage : Int) = 0 := rfl
    have hlen : (len (NewCash frees : Cash V).Storage : Int) ≤
        (NewCash frees : Cash V).Capacity := by
      rw [hzero]
      exact le_trans (by decide) hcap
    exact run_keeps_bound ops (NewCash frees) hcap ⟨rfl, rfl⟩ (Finmap.not_mem_empty) hlen hadm

/-- Witness of C20: on the full state `pairCash` (capacity 2) a `Set` of the new
key `c` keeps two entries, and a run of four calls from `NewCash` stays within
the capacity. -/
theorem size_bound_without_empty_key_witness :
    ((1 : Int) ≤ pairCash.Capacity ∧ pairCash.SameKeys ∧ "" ∉ pairCash.Storage ∧
      (len pairCash.Storage : Int) ≤ pairCash.Capacity ∧ "c" ≠ "" ∧
      (pairCash.Capacity ≤ (len pairCash.Storage : Int) →
        IsRangeOf [⟨"b", 2⟩, ⟨"a", 1⟩] pairCash.LastAccess) ∧
      (len (pairCash.Set "c" "w" 100 5 5 [⟨"b", 2⟩, ⟨"a", 1⟩]).Storage : Int) ≤
        (pairCash.Set "c" "w" 100 5 5 [⟨"b", 2⟩, ⟨"a", 1⟩]).Capacity) ∧
    (AdmissibleRun (NewCash 0 : Cash String)
        [.set "a" "v" 5 0 0 [], .get "a" 1 1, .set "b" "w" 5 2 2 [], .delete "a"] ∧
      (len (run (NewCash 0 : Cash String)
        [.set "a" "v" 5 0 0 [], .get "a" 1 1, .set "b" "w" 5 2 2 [], .delete "a"]).Storage
          : Int) ≤
        (run (NewCash 0 : Cash String)
          [.set "a" "v" 5 0 0 [], .get "a" 1 1, .set "b" "w" 5 2 2 [], .delete "a"]).Capacity) :=
  ⟨⟨by decide, by decide, by decide, by decide, by decide, fun _ => by decide,
      (size_bound_without_empty_key.1 pairCash (by decide) (by decide) (by decide)
        (by decide)).1 "c" "w" 100 5 5 [⟨"b", 2⟩, ⟨"a", 1⟩] (by decide) (fun _ => by decide)⟩,
    ⟨by simp only [AdmissibleRun, Admissible, step]; decide,
      size_bound_without_empty_key.2 0
        [.set "a" "v" 5 0 0 [], .get "a" 1 1, .set "b" "w" 5 2 2 [], .delete "a"]
        (by simp only [AdmissibleRun, Admissible, step]; decide)⟩⟩

end Cash

namespace Cash

/-! ## C15: the driver -/

theorem digitChar_value : ∀ d, d < 10 → (Nat.digitChar d).toNat - 48 = d := by
  decide

/-- Reading back the digits written by `Nat.toDigitsCore` gives the number. -/
theorem digitsValue_toDigitsCore (fuel : Nat) :
    ∀ (n : Nat) (ds : List Char), n < fuel →
      digitsValue (Nat.toDigitsCore 10 fuel n ds) 0 = digitsValue ds n := by
  induction fuel with
  | zero => intro n ds h; exact absurd h (Nat.not_lt_zero n)
  | succ fuel ih =>
    intro n ds h
    have hd : (Nat.digitChar (n % 10)).toNat - 48 = n % 10 :=
      digitChar_value (n % 10) (Nat.mod_lt n (by decide))
    unfold Nat.toDigitsCore
    dsimp only
    split
    · rename_i hzero
      have hn : n % 10 = n := by omega
      simp only [digitsValue, List.foldl_cons, Nat.zero_mul, Nat.zero_add]
      rw [hd, hn]
    · rename_i hnz
      have hlt : n / 10 < fuel := by omega
      rw [ih (n / 10) _ hlt]
      have hn : n / 10 * 10 + n % 10 = n := by omega
      simp only [digitsValue, List.foldl_cons, hd, hn]

/-- Two numbers with the same decimal representation are equal. -/
theorem Nat_repr_injective (n m : Nat) (h : Nat.repr n = Nat.repr m) : n = m := by
  have hl : Nat.toDigits 10 n = Nat.toDigits 10 m := by
    have := congrArg String.data h
    simpa [Nat.repr, List.asString] using this
  have hn := digitsValue_toDigitsCore (n + 1) n [] (Nat.lt_succ_self n)
  have hm := digitsValue_toDigitsCore (m + 1) m [] (Nat.lt_succ_self m)
  unfold Nat.toDigits at hl
  rw [hl, hm] at hn
  simpa [digitsValue] using hn.symm

theorem keyName_injective (i j : Nat) (h : keyName i = keyName j) : i = j := by
  apply Nat_repr_injective
  have := congrArg String.data h
  simp only [keyName, String.data_append, List.append_cancel_left_eq] at this
  exact String.ext this

theorem keyName_ne_empty (i : Nat) : keyName i ≠ "" := by
  intro h
  have := congrArg String.length h
  simp only [keyName, String.length_append] at this
  have h3 : "key".length = 3 := by decide
  have h0 : "".length = 0 := by decide
  omega

theorem keyName_ne_key2 (i : Nat) : keyName (i + 3) ≠ "key2" := by
  intro h
  have h2 : keyName 2 = "key2" := by decide
  rw [← h2] at h
  have := keyName_injective _ _ h
  omega

variable {V : Type}

/-- A key of the state after `evict` is a key of the state before. -/
theorem mem_evict_Storage (c : Cash V) (order : List RangeEntry) (k : String)
    (h : k ∈ (c.evict order).Storage) : k ∈ c.Storage := by
  unfold evict at h
  dsimp only at h
  split at h
  · exact (Finmap.mem_erase.mp h).2
  · exact h

/-- `Set` leaves `Capacity` as it is. -/
theorem Set_Capacity (c : Cash V) (key : String) (value : V) (ttl : Duration)
    (now1 now2 : Time) (order : List RangeEntry) :
    (c.Set key value ttl now1 now2 order).Capacity = c.Capacity := by
  unfold Set evict
  dsimp only
  split
  · split <;> rfl
  · rfl

/-- A key absent before a `Set` of another key is absent after it. -/
theorem Set_not_mem (c : Cash V) (key : String) (value : V) (ttl : Duration)
    (now1 now2 : Time) (order : List RangeEntry) (k : String) (hk : k ∉ c.Storage)
    (hne : k ≠ key) : k ∉ (c.Set key value ttl now1 now2 order).Storage := by
  unfold Set
  dsimp only
  rw [Finmap.mem_insert]
  rintro (h | h)
  · exact hne h
  · split at h
    · exact hk (mem_evict_Storage c order k h)
    · exact hk h

end Cash

namespace Cash

/-- The bound of the loop of `main` does not change while the loop runs. -/
theorem mainLoop_Capacity (clock : MainClock) (rangeOf : Nat → GoMap Time → List RangeEntry)
    (cash : Cash String) (j : Nat) :
    (mainLoop clock rangeOf cash j).Capacity = cash.Capacity := by
  induction j with
  | zero => rfl
  | succ j ih =>
    rw [mainLoop, Set_Capacity, ih]

/-- The loop of `main` before the capacity check first trips.  Started in a
lockstep state of capacity `C` whose only key is `key2`, last accessed at `a2`,
with every loop reading after `a2`: after `j` iterations with `j + 1 ≤ C`, the
state holds `key2` and the `j` keys written so far, `key2` is still last
accessed at `a2` and every other key was accessed later. -/
theorem mainLoop_before_trip (clock : MainClock)
    (rangeOf : Nat → GoMap Time → List RangeEntry) (c0 : Cash String) (a2 : Time) (C : Int)
    (hcap : c0.Capacity = C) (hsame : c0.SameKeys)
    (hkeys : ∀ k, k ∈ c0.Storage ↔ k = "key2")
    (hla : c0.LastAccess.lookup "key2" = some a2)
    (hclock : ∀ j : Nat, (j : Int) + 1 < C → a2 < (clock.loop j).2) :
    ∀ j : Nat, (j : Int) + 1 ≤ C →
      (mainLoop clock rangeOf c0 j).Capacity = C ∧
      (mainLoop clock rangeOf c0 j).SameKeys ∧
      len (mainLoop clock rangeOf c0 j).Storage = j + 1 ∧
      (∀ k, k ∈ (mainLoop clock rangeOf c0 j).Storage ↔
        (k = "key2" ∨ ∃ i, i < j ∧ k = keyName (i + 3))) ∧
      (mainLoop clock rangeOf c0 j).LastAccess.lookup "key2" = some a2 ∧
      (∀ k t, k ≠ "key2" → (mainLoop clock rangeOf c0 j).LastAccess.lookup k = some t →
        a2 < t) := by
  intro j
  induction j with
  | zero =>
    intro _
    refine ⟨hcap, hsame, ?_, ?_, hla, ?_⟩
    · have hk : c0.Storage.keys = {"key2"} := by
        ext k
        rw [Finmap.mem_keys, hkeys, Finset.mem_singleton]
      show c0.Storage.keys.card = 0 + 1
      rw [hk]
      rfl
    · intro k
      show k ∈ c0.Storage ↔ _
      rw [hkeys]
      constructor
      · exact fun h => Or.inl h
      · rintro (h | ⟨i, hi, -⟩)
        · exact h
        · exact absurd hi (Nat.not_lt_zero i)
    · intro k t hk hlook
      have hmem : k ∈ c0.LastAccess := Finmap.mem_of_lookup_eq_some hlook
      rw [← Finmap.mem_keys, ← hsame.2, ← hsame.1, Finmap.mem_keys, hkeys] at hmem
      exact absurd hmem hk
  | succ j ih =>
    intro hj
    obtain ⟨h1, h2, h3, h4, h5, h6⟩ := ih (by omega)
    have hnotfull : ¬ (mainLoop clock rangeOf c0 j).Capacity ≤
        (len (mainLoop clock rangeOf c0 j).Storage : Int) := by
      rw [h1, h3]
      push_cast
      omega
    have hnew : keyName (j + 3) ∉ (mainLoop clock rangeOf c0 j).Storage := by
      rw [h4]
      rintro (h | ⟨i, hi, h⟩)
      · exact keyName_ne_key2 j h
      · have := keyName_injective _ _ h
        omega
    have hst : (mainLoop clock rangeOf c0 (j + 1)).Storage =
        (mainLoop clock rangeOf c0 j).Storage.insert (keyName (j + 3)) (valueName (j + 3)) := by
      simp [mainLoop, Set, hnotfull]
    have hacc : (mainLoop clock rangeOf c0 (j + 1)).LastAccess =
        (mainLoop clock rangeOf c0 j).LastAccess.insert (keyName (j + 3)) (clock.loop j).2 := by
      simp [mainLoop, Set, hnotfull]
    have hcp : (mainLoop clock rangeOf c0 (j + 1)).Capacity =
        (mainLoop clock rangeOf c0 j).Capacity := by
      simp [mainLoop, Set, hnotfull]
    refine ⟨by rw [hcp, h1], ?_, ?_, ?_, ?_, ?_⟩
    · exact SameKeys_Set _ h2 _ _ _ _ _ _
    · rw [hst, GoMap.len_insert_of_not_mem _ _ _ hnew, h3]
    · intro k
      rw [hst, Finmap.mem_insert, h4]
      constructor
      · rintro (h | h | ⟨i, hi, h⟩)
        · exact Or.inr ⟨j, Nat.lt_succ_self j, h⟩
        · exact Or.inl h
        · exact Or.inr ⟨i, Nat.lt_succ_of_lt hi, h⟩
      · rintro (h | ⟨i, hi, h⟩)
        · exact Or.inr (Or.inl h)
        · rcases Nat.lt_succ_iff_lt_or_eq.mp hi with hlt | heq
          · exact Or.inr (Or.inr ⟨i, hlt, h⟩)
          · exact Or.inl (heq ▸ h)
    · rw [hacc, Finmap.lookup_insert_of_ne _ (fun h => keyName_ne_key2 j h.symm)]
      exact h5
    · intro k t hk hlook
      rw [hacc] at hlook
      by_cases hkj : k = keyName (j + 3)
      · subst hkj
        rw [Finmap.lookup_insert] at hlook
        have ht : (clock.loop j).2 = t := Option.some.inj hlook
        rw [← ht]
        exact hclock j (by omega)
      · rw [Finmap.lookup_insert_of_ne _ hkj] at hlook
        exact h6 k t hk hlook

/-- In a lockstep state whose keys are `key2` and keys written by the loop of
`main`, with `key2` accessed strictly before every other key, `evict` deletes
`key2`. -/
theorem evict_deletes_key2 (c : Cash String) (order : List RangeEntry) (a2 : Time) (j : Nat)
    (hsame : c.SameKeys) (hr : IsRangeOf order c.LastAccess)
    (hkeys : ∀ k, k ∈ c.Storage ↔ (k = "key2" ∨ ∃ i, i < j ∧ k = keyName (i + 3)))
    (hla : c.LastAccess.lookup "key2" = some a2)
    (hlater : ∀ k t, k ≠ "key2" → c.LastAccess.lookup k = some t → a2 < t) :
    c.evict order = c.DeleteKey "key2" := by
  have hno : "" ∉ c.Storage := by
    rw [hkeys]
    rintro (h | ⟨i, -, h⟩)
    · exact absurd h (by decide)
    · exact keyName_ne_empty _ h.symm
  have hpos : 0 < len c.Storage :=
    Finset.card_pos.mpr ⟨"key2", Finmap.mem_keys.mpr ((hkeys "key2").mpr (Or.inl rfl))⟩
  obtain ⟨k, t, -, -, hlook, hmin, hev⟩ := evict_of_no_empty_key c order hsame hr hno hpos
  have hle : t ≤ a2 := hmin "key2" a2 hla
  have hk : k = "key2" := by
    by_contra hne
    have := hlater k t hne hlook
    exact absurd hle (not_le.mpr this)
  rw [hev, hk]

end Cash

namespace Cash

/-- The state after the two `Set` calls of `main` on a fresh engine of capacity
at least 2: no eviction, both entries written. -/
theorem mainSets_fresh (C : Int) (hC : 2 ≤ C) (clock : MainClock)
    (rangeOf : Nat → GoMap Time → List RangeEntry) :
    mainSets ⟨∅, ∅, ∅, C⟩ clock rangeOf =
      { Storage := ((∅ : GoMap String).insert "key1" "value1").insert "key2" "value2"
        TTL := ((∅ : GoMap Time).insert "key1" (clock.set1.1 + 5 * Second)).insert "key2"
          (clock.set2.1 + 10 * Second)
        LastAccess := ((∅ : GoMap Time).insert "key1" clock.set1.2).insert "key2" clock.set2.2
        Capacity := C } := by
  have h0 : len (∅ : GoMap String) = 0 := rfl
  have h1 : len ((∅ : GoMap String).insert "key1" "value1") = 1 := by
    rw [GoMap.len_insert_of_not_mem _ _ _ (Finmap.not_mem_empty), h0]
  have hn0 : ¬ C ≤ ((0 : Nat) : Int) := by push_cast; omega
  have hn1 : ¬ C ≤ ((1 : Nat) : Int) := by push_cast; omega
  simp only [mainSets, Set, h0, h1, if_neg hn0, if_neg hn1]

/-- The run of `main` up to its second `Get` on a fresh engine of capacity at
least 2, when the first `Get` reads the clock less than 5 seconds after the
expiry reading of `Set("key1")` and the second one more than 5 seconds after
it: the first `Get` returns `value1`, the second fails and deletes `key1`. -/
theorem mainSecondGet_fresh (C : Int) (hC : 2 ≤ C) (clock : MainClock)
    (rangeOf : Nat → GoMap Time → List RangeEntry)
    (hfirst : clock.get1.1 - clock.set1.1 < 5 * Second)
    (hsecond : 5 * Second < clock.get2.1 - clock.set1.1) :
    (mainFirstGet ⟨∅, ∅, ∅, C⟩ clock rangeOf).1 = .ok "value1" ∧
    (mainSecondGet ⟨∅, ∅, ∅, C⟩ clock rangeOf).1 = .error { Key := "key1" } ∧
    (mainSecondGet ⟨∅, ∅, ∅, C⟩ clock rangeOf).2.Capacity = C ∧
    (mainSecondGet ⟨∅, ∅, ∅, C⟩ clock rangeOf).2.SameKeys ∧
    (∀ k, k ∈ (mainSecondGet ⟨∅, ∅, ∅, C⟩ clock rangeOf).2.Storage ↔ k = "key2") ∧
    (mainSecondGet ⟨∅, ∅, ∅, C⟩ clock rangeOf).2.LastAccess.lookup "key2" =
      some clock.set2.2 := by
  have h12 : ("key1" : String) ≠ "key2" := by decide
  have h21 : ("key2" : String) ≠ "key1" := by decide
  have hlive : ¬ clock.set1.1 + 5 * Second < clock.get1.1 := by linarith
  have hdead : clock.set1.1 + 5 * Second < clock.get2.1 := by linarith
  have hg1 : mainFirstGet ⟨∅, ∅, ∅, C⟩ clock rangeOf =
      (.ok "value1",
        { Storage := ((∅ : GoMap String).insert "key1" "value1").insert "key2" "value2"
          TTL := ((∅ : GoMap Time).insert "key1" (clock.set1.1 + 5 * Second)).insert "key2"
            (clock.set2.1 + 10 * Second)
          LastAccess := (((∅ : GoMap Time).insert "key1" clock.set1.2).insert "key2"
            clock.set2.2).insert "key1" clock.get1.2
          Capacity := C }) := by
    rw [mainFirstGet, mainSets_fresh C hC]
    simp [Get, Finmap.lookup_insert_of_ne _ h12, Finmap.lookup_insert, hlive]
  have hg2 : mainSecondGet ⟨∅, ∅, ∅, C⟩ clock rangeOf =
      (.error { Key := "key1" },
        { Storage := (((∅ : GoMap String).insert "key1" "value1").insert "key2"
            "value2").erase "key1"
          TTL := (((∅ : GoMap Time).insert "key1" (clock.set1.1 + 5 * Second)).insert "key2"
            (clock.set2.1 + 10 * Second)).erase "key1"
          LastAccess := ((((∅ : GoMap Time).insert "key1" clock.set1.2).insert "key2"
            clock.set2.2).insert "key1" clock.get1.2).erase "key1"
          Capacity := C }) := by
    rw [mainSecondGet, hg1]
    simp [Get, DeleteKey, Finmap.lookup_insert_of_ne _ h12, Finmap.lookup_insert, hdead]
  refine ⟨by rw [hg1], by rw [hg2], by rw [hg2], ?_, ?_, ?_⟩
  · have hs0 : SameKeys (⟨∅, ∅, ∅, C⟩ : Cash String) := ⟨rfl, rfl⟩
    exact SameKeys_Get _ (SameKeys_Get _ (SameKeys_Set _ (SameKeys_Set _ hs0 _ _ _ _ _ _)
      _ _ _ _ _ _) _ _ _) _ _ _
  · intro k
    rw [hg2]
    simp only [Finmap.mem_erase, Finmap.mem_insert]
    constructor
    · rintro ⟨hne, h | h | h⟩
      · exact h
      · exact absurd h hne
      · exact absurd h Finmap.not_mem_empty
    · intro h
      exact ⟨by rw [h]; exact h21, Or.inl h⟩
  · rw [hg2]
    simp only []
    rw [Finmap.lookup_erase_ne h21, Finmap.lookup_insert_of_ne _ h21, Finmap.lookup_insert]

end Cash

namespace Cash

/-- C15. Driver scenario: on a fresh engine of capacity `C ≥ 100`, with a clock
that does not run backwards, iteration orders that enumerate the map iterated,
the first `Get` read less than 5 s after the `Set`s and the second at least 6 s
after them, `main` gets `"value1"` from the first `Get("key1")`, `KeyNotFound`
from the second `Get("key1")` and, after the loop of `C + 1` `Set`s on the keys
`key3 .. key<C+3>`, `KeyNotFound` from `Get("key2")`: the capacity check first
trips in loop iteration `C - 1` (numbered from 0), where `Storage` holds `C`
entries and `key2` has the strictly smallest last access, so that `evict`
deletes `key2`. -/
theorem main_scenario (C : Int) (hC : 100 ≤ C) (clock : MainClock)
    (rangeOf : Nat → GoMap Time → List RangeEntry)
    (hrange : ∀ i m, IsRangeOf (rangeOf i m) m)
    (hclock : clock.NonDecreasing (C + 1).toNat)
    (hfirst : clock.get1.1 - clock.set1.1 < 5 * Second)
    (hsecond : 6 * Second ≤ clock.get2.1 - clock.set2.2) :
    ((mainBody ⟨∅, ∅, ∅, C⟩ clock rangeOf).first = .ok "value1" ∧
      (mainBody ⟨∅, ∅, ∅, C⟩ clock rangeOf).second = .error { Key := "key1" } ∧
      (mainBody ⟨∅, ∅, ∅, C⟩ clock rangeOf).third = .error { Key := "key2" }) ∧
    (mainIterations (mainSecondGet ⟨∅, ∅, ∅, C⟩ clock rangeOf).2 = (C - 1).toNat + 2 ∧
      (∀ j, j < (C - 1).toNat →
        (len (mainLoop clock rangeOf (mainSecondGet ⟨∅, ∅, ∅, C⟩ clock rangeOf).2 j).Storage
          : Int) < C) ∧
      (len (mainLoop clock rangeOf (mainSecondGet ⟨∅, ∅, ∅, C⟩ clock rangeOf).2
        (C - 1).toNat).Storage : Int) = C ∧
      (∀ k t, k ≠ "key2" →
        (mainLoop clock rangeOf (mainSecondGet ⟨∅, ∅, ∅, C⟩ clock rangeOf).2
          (C - 1).toNat).LastAccess.lookup k = some t → clock.set2.2 < t) ∧
      (mainLoop clock rangeOf (mainSecondGet ⟨∅, ∅, ∅, C⟩ clock rangeOf).2
          (C - 1).toNat).LastAccess.lookup "key2" = some clock.set2.2 ∧
      (mainLoop clock rangeOf (mainSecondGet ⟨∅, ∅, ∅, C⟩ clock rangeOf).2
          (C - 1).toNat).evict
          (rangeOf ((C - 1).toNat + 2)
            (mainLoop clock rangeOf (mainSecondGet ⟨∅, ∅, ∅, C⟩ clock rangeOf).2
              (C - 1).toNat).LastAccess) =
        (mainLoop clock rangeOf (mainSecondGet ⟨∅, ∅, ∅, C⟩ clock rangeOf).2
          (C - 1).toNat).DeleteKey "key2") := by
  have hS : (0 : Int) < Second := by decide
  obtain ⟨c1, c2, c3, c4, c5, c6, c7, c8, -, -, -⟩ := hclock
  have hsecond' : 5 * Second < clock.get2.1 - clock.set1.1 := by linarith
  obtain ⟨hr1, hr2, hcap, hsame, hkeys, hla⟩ :=
    mainSecondGet_fresh C (by omega) clock rangeOf hfirst hsecond'
  have hn0 : (((C - 1).toNat : Nat) : Int) + 1 = C := by
    rw [Int.toNat_of_nonneg (by omega)]
    omega
  have hiter : mainIterations (mainSecondGet ⟨∅, ∅, ∅, C⟩ clock rangeOf).2 =
      (C - 1).toNat + 2 := by
    unfold mainIterations
    rw [hcap]
    omega
  have hlater : ∀ j : Nat, (j : Int) + 1 < C → clock.set2.2 < (clock.loop j).2 := by
    intro j hj
    have hjn : j < (C + 1).toNat := by omega
    obtain ⟨h1, h2⟩ := c8 j hjn
    linarith
  have hinv := mainLoop_before_trip clock rangeOf
    (mainSecondGet ⟨∅, ∅, ∅, C⟩ clock rangeOf).2 clock.set2.2 C hcap hsame hkeys hla hlater
  obtain ⟨t1, t2, t3, t4, t5, t6⟩ := hinv (C - 1).toNat (by omega)
  have hev := evict_deletes_key2 _
    (rangeOf ((C - 1).toNat + 2)
      (mainLoop clock rangeOf (mainSecondGet ⟨∅, ∅, ∅, C⟩ clock rangeOf).2
        (C - 1).toNat).LastAccess)
    clock.set2.2 (C - 1).toNat t2 (hrange _ _) t4 t5 t6
  have hfull : (mainLoop clock rangeOf (mainSecondGet ⟨∅, ∅, ∅, C⟩ clock rangeOf).2
      (C - 1).toNat).Capacity ≤
      (len (mainLoop clock rangeOf (mainSecondGet ⟨∅, ∅, ∅, C⟩ clock rangeOf).2
        (C - 1).toNat).Storage : Int) := by
    rw [t1, t3]
    push_cast
    omega
  have hgone1 : "key2" ∉ (mainLoop clock rangeOf (mainSecondGet ⟨∅, ∅, ∅, C⟩ clock rangeOf).2
      ((C - 1).toNat + 1)).Storage := by
    have hst : (mainLoop clock rangeOf (mainSecondGet ⟨∅, ∅, ∅, C⟩ clock rangeOf).2
        ((C - 1).toNat + 1)).Storage =
        ((mainLoop clock rangeOf (mainSecondGet ⟨∅, ∅, ∅, C⟩ clock rangeOf).2
          (C - 1).toNat).Storage.erase "key2").insert (keyName ((C - 1).toNat + 3))
          (valueName ((C - 1).toNat + 3)) := by
      simp only [mainLoop, Set, if_pos hfull, hev, DeleteKey]
    rw [hst, Finmap.mem_insert]
    rintro (h | h)
    · exact keyName_ne_key2 _ h.symm
    · exact Finmap.not_mem_erase_self h
  have hgone2 : "key2" ∉ (mainLoop clock rangeOf (mainSecondGet ⟨∅, ∅, ∅, C⟩ clock rangeOf).2
      ((C - 1).toNat + 2)).Storage :=
    Set_not_mem _ _ _ _ _ _ _ "key2" hgone1 (fun h => keyName_ne_key2 _ h.symm)
  refine ⟨⟨hr1, hr2, ?_⟩, hiter, ?_, ?_, t6, t5, hev⟩
  · show ((mainLoop clock rangeOf (mainSecondGet ⟨∅, ∅, ∅, C⟩ clock rangeOf).2
      (mainIterations (mainSecondGet ⟨∅, ∅, ∅, C⟩ clock rangeOf).2)).Get "key2"
        clock.get3.1 clock.get3.2).1 = .error { Key := "key2" }
    rw [hiter]
    have hnone := Finmap.lookup_eq_none.mpr hgone2
    simp only [Get, hnone]
  · intro j hj
    obtain ⟨-, -, s3, -, -, -⟩ := hinv j (by omega)
    rw [s3]
    push_cast
    omega
  · rw [t3]
    push_cast
    omega

end Cash

namespace Cash

/-- The entries by increasing key are an iteration order of the map. -/
theorem sortedRange_isRangeOf (m : GoMap Time) : IsRangeOf (sortedRange m) m := by
  unfold IsRangeOf
  have hmem : ∀ e : RangeEntry, e ∈ sortedRange m ↔ e ∈ m.entries := by
    rintro ⟨k, t⟩
    rw [← Finmap.lookup_eq_some_iff]
    unfold sortedRange
    rw [List.mem_filterMap]
    constructor
    · rintro ⟨a, -, ha⟩
      cases hl : m.lookup a with
      | none => rw [hl] at ha; exact absurd ha (by simp)
      | some u =>
        rw [hl] at ha
        simp only [Option.map_some', Option.some.injEq, Sigma.mk.inj_iff] at ha
        obtain ⟨rfl, hu⟩ := ha
        rw [hl, eq_of_heq hu]
    · intro h
      refine ⟨k, ?_, by rw [h]; rfl⟩
      rw [Finset.mem_sort, Finmap.mem_keys]
      exact Finmap.mem_of_lookup_eq_some h
  have hnodup : (sortedRange m).Nodup := by
    unfold sortedRange
    apply List.Nodup.filterMap _ (Finset.sort_nodup _ _)
    intro a a' b hb hb'
    cases hl : m.lookup a with
    | none => rw [hl] at hb; exact absurd hb (by simp)
    | some u =>
      cases hl' : m.lookup a' with
      | none => rw [hl'] at hb'; exact absurd hb' (by simp)
      | some u' =>
        rw [hl] at hb
        rw [hl'] at hb'
        simp only [Option.map_some', Option.mem_def, Option.some.injEq] at hb hb'
        rw [← hb'] at hb
        exact (Sigma.mk.inj_iff.mp hb).1
  exact (Multiset.Nodup.ext (Multiset.coe_nodup.mpr hnodup) m.nodup_entries).mpr hmem

theorem sampleClock_nonDecreasing : sampleClock.NonDecreasing 101 := by
  have hS : Second = 1000000000 := rfl
  unfold MainClock.NonDecreasing sampleClock
  simp only [hS]
  refine ⟨by decide, by decide, by decide, by decide, by decide, by decide, by decide,
    ?_, ?_, ?_, by decide⟩
  · intro j _
    have hj0 : (0 : Int) ≤ (j : Int) := Int.natCast_nonneg j
    constructor <;> linarith
  · intro j _
    push_cast
    linarith
  · intro j hj
    have hj1 : (j : Int) < 101 := by exact_mod_cast hj
    linarith

/-- Witness of C15: `main` with `Frees = 0` (capacity 100), the clock
`sampleClock` and the iteration by increasing key. -/
theorem main_scenario_witness :
    ((100 : Int) ≤ 100 ∧ sampleClock.NonDecreasing (100 + 1 : Int).toNat ∧
      sampleClock.get1.1 - sampleClock.set1.1 < 5 * Second ∧
      6 * Second ≤ sampleClock.get2.1 - sampleClock.set2.2) ∧
    (main 0 sampleClock fun _ m => sortedRange m).first = .ok "value1" ∧
    (main 0 sampleClock fun _ m => sortedRange m).second = .error { Key := "key1" } ∧
    (main 0 sampleClock fun _ m => sortedRange m).third = .error { Key := "key2" } :=
  ⟨⟨by decide, sampleClock_nonDecreasing, by decide, by decide⟩,
    (main_scenario 100 (by decide) sampleClock (fun _ m => sortedRange m)
      (fun _ m => sortedRange_isRangeOf m) sampleClock_nonDecreasing (by decide)
      (by decide)).1⟩

end Cash
